import Mathlib

/-!
# libutf8: a shallow embedding of `src/utf8.c`

Bytes, states, codepoints and indices are natural numbers.  A buffer is the list of the
bytes of the memory object a `void *buf` points to (every element below 256); a null
pointer is `none`.  A read or a write past the end of that list is undefined behaviour in
C and makes the embedded function return `none`.

The values of `size_t` and `ssize_t` variables are indices into, or lengths of, a buffer
that lives in memory, so they stay far below `2 ^ 63` and are modelled without wrap-around.
The 32-bit codepoint accumulator is reduced modulo `2 ^ 32` where the code shifts it.
-/

namespace Utf8

/-! ## Constants -/

/-- Automaton state `ACCEPT` (`#define ACCEPT 0`). -/
def ACCEPT : Nat := 0

/-- Automaton state `REJECT` (`#define REJECT 12`). -/
def REJECT : Nat := 12

/-- Modelled from the spec: `EINVAL` comes from the system header `errno.h`, which is not
part of the repository; the spec calls it `InvalidArgument`, a negative return once negated.
The Linux value is used. -/
def EINVAL : Int := 22

/-- Modelled from the spec: `ENOMEM` comes from the system header `errno.h`, which is not
part of the repository; the spec calls it `OutOfSpace`, a negative return once negated.
The Linux value is used. -/
def ENOMEM : Int := 12

/-- The table `g_utf8d`: 256 byte classes followed by the 9 transition rows of 12 entries. -/
def g_utf8d : List Nat := [
   0,0,0,0,0,0,0,0,0,0,0,0,0,0,0,0,  0,0,0,0,0,0,0,0,0,0,0,0,0,0,0,0,
   0,0,0,0,0,0,0,0,0,0,0,0,0,0,0,0,  0,0,0,0,0,0,0,0,0,0,0,0,0,0,0,0,
   0,0,0,0,0,0,0,0,0,0,0,0,0,0,0,0,  0,0,0,0,0,0,0,0,0,0,0,0,0,0,0,0,
   0,0,0,0,0,0,0,0,0,0,0,0,0,0,0,0,  0,0,0,0,0,0,0,0,0,0,0,0,0,0,0,0,
   1,1,1,1,1,1,1,1,1,1,1,1,1,1,1,1,  9,9,9,9,9,9,9,9,9,9,9,9,9,9,9,9,
   7,7,7,7,7,7,7,7,7,7,7,7,7,7,7,7,  7,7,7,7,7,7,7,7,7,7,7,7,7,7,7,7,
   8,8,2,2,2,2,2,2,2,2,2,2,2,2,2,2,  2,2,2,2,2,2,2,2,2,2,2,2,2,2,2,2,
  10,3,3,3,3,3,3,3,3,3,3,3,3,4,3,3, 11,6,6,6,5,8,8,8,8,8,8,8,8,8,8,8,
   0,12,24,36,60,96,84,12,12,12,48,72, 12,12,12,12,12,12,12,12,12,12,12,12,
  12, 0,12,12,12,12,12, 0,12, 0,12,12, 12,24,12,12,12,12,12,24,12,24,12,12,
  12,12,12,12,12,12,12,24,12,12,12,12, 12,24,12,12,12,12,12,12,12,24,12,12,
  12,12,12,12,12,12,12,36,12,36,12,12, 12,36,12,12,12,12,12,36,12,36,12,12,
  12,36,12,12,12,12,12,12,12,12,12,12]

/-! ## The decode step and the encoder -/

/-- The function `decode`: one step of the automaton.  Returns the new `*state` and the new
`*codep`.  The parameter `byte` has type `uint8_t`.  The table is read with a default of
`0`; for a state that is one of the nine row offsets the index lies inside the table. -/
def decode (state codep byte : Nat) : Nat × Nat :=
  let byte := byte % 256
  let type := g_utf8d.getD byte 0
  let codep1 :=
    if state ≠ ACCEPT then ((byte &&& 0x3f) ||| ((codep <<< 6) % 2 ^ 32))
    else (0xff >>> type) &&& byte
  let state1 := g_utf8d.getD (256 + state + type) 0
  (state1, codep1)

/-- The function `encoded_type`: the number of bytes `encode` writes for a codepoint. -/
def encoded_type (codepoint : Nat) : Nat :=
  if codepoint < 0x80 then 1
  else if codepoint < 0x800 then 2
  else if codepoint < 0x10000 then 3
  else 4

/-- The function `encode1`: the byte written at `s[0]`. -/
def encode1 (codepoint : Nat) : List Nat :=
  [codepoint % 256]

/-- The function `encode2`: the bytes written at `s[0]`, `s[1]`. -/
def encode2 (codepoint : Nat) : List Nat :=
  [((codepoint >>> 6) ||| 0xC0) % 256,
   ((codepoint &&& 0x3F) ||| 0x80) % 256]

/-- The function `encode3`: the bytes written at `s[0]`, `s[1]`, `s[2]`. -/
def encode3 (codepoint : Nat) : List Nat :=
  [((codepoint >>> 12) ||| 0xE0) % 256,
   (((codepoint >>> 6) &&& 0x3F) ||| 0x80) % 256,
   ((codepoint &&& 0x3F) ||| 0x80) % 256]

/-- The function `encode4`: the bytes written at `s[0]` to `s[3]`. -/
def encode4 (codepoint : Nat) : List Nat :=
  [((codepoint >>> 18) ||| 0xF0) % 256,
   (((codepoint >>> 12) &&& 0x3F) ||| 0x80) % 256,
   (((codepoint >>> 6) &&& 0x3F) ||| 0x80) % 256,
   ((codepoint &&& 0x3F) ||| 0x80) % 256]

/-- The function `encode`: the bytes written to the output buffer; the C function returns
their number. -/
def encode (codepoint : Nat) : List Nat :=
  match encoded_type codepoint with
  | 1 => encode1 codepoint
  | 2 => encode2 codepoint
  | 3 => encode3 codepoint
  | 4 => encode4 codepoint
  | _ => []

/-! ## Read-only scans -/

/-- Loop of `utf8_decode`: `while (*s) { decode(&state, &codepoint, *s++); ... }`.  The
first argument is the part of the buffer the pointer `s` still has in front of it; `calls`
lists the codepoints handed to the listener so far, oldest first. -/
def utf8_decode_loop : List Nat → Nat → Nat → List Nat → Option (List Nat)
  | [], _, _, _ => none
  | b :: rest, state, codepoint, calls =>
    if b ≠ 0 then
      let r := decode state codepoint b
      if r.1 = ACCEPT then utf8_decode_loop rest r.1 r.2 (calls ++ [r.2])
      else utf8_decode_loop rest r.1 r.2 calls
    else some calls

/-- The function `utf8_decode`: the return value and the codepoints the listener received,
in call order.  The local `codepoint` is uninitialised in C and is not read before the
first `decode` overwrites it (the state is `ACCEPT` then); it starts at `0` here. -/
def utf8_decode (buf : Option (List Nat)) : Option (Int × List Nat) :=
  match buf with
  | none => some (-EINVAL, [])
  | some s =>
    match utf8_decode_loop s ACCEPT 0 [] with
    | none => none
    | some calls => some (0, calls)

/-- Loop of `utf8_check`: `while (*s) decode(&state, &codepoint, *s++);`.  Returns the
final state. -/
def utf8_check_loop : List Nat → Nat → Nat → Option Nat
  | [], _, _ => none
  | b :: rest, state, codepoint =>
    if b ≠ 0 then
      let r := decode state codepoint b
      utf8_check_loop rest r.1 r.2
    else some state

/-- The function `utf8_check`. -/
def utf8_check (buf : Option (List Nat)) : Option Int :=
  match buf with
  | none => some (-EINVAL)
  | some s =>
    match utf8_check_loop s ACCEPT 0 with
    | none => none
    | some state => some (if state = ACCEPT then 0 else 1)

/-- Loop of `utf8_count`: `cnt += (state == ACCEPT)` after every step. -/
def utf8_count_loop : List Nat → Nat → Nat → Int → Option Int
  | [], _, _, _ => none
  | b :: rest, state, codepoint, cnt =>
    if b ≠ 0 then
      let r := decode state codepoint b
      utf8_count_loop rest r.1 r.2 (cnt + (if r.1 = ACCEPT then 1 else 0))
    else some cnt

/-- The function `utf8_count`. -/
def utf8_count (buf : Option (List Nat)) : Option Int :=
  match buf with
  | none => some (-EINVAL)
  | some s => utf8_count_loop s ACCEPT 0 0

/-- Loop of `utf8_len`: `for (i = 0; s[i]; i++) { decode(...); if (state == ACCEPT) bc = i; }`.
The first argument is the buffer from index `i` on. -/
def utf8_len_loop : List Nat → Nat → Nat → Nat → Int → Option Int
  | [], _, _, _, _ => none
  | b :: rest, i, state, codepoint, bc =>
    if b ≠ 0 then
      let r := decode state codepoint b
      utf8_len_loop rest (i + 1) r.1 r.2 (if r.1 = ACCEPT then (i : Int) else bc)
    else some bc

/-- The function `utf8_len`. -/
def utf8_len (buf : Option (List Nat)) : Option Int :=
  match buf with
  | none => some (-EINVAL)
  | some s => utf8_len_loop s 0 ACCEPT 0 0

/-- Loop of `utf8_nlen`: `for (i = 0; i < len && s[i]; i++) { ... }`.  The first argument
is the buffer from index `i` on; `s[i]` is read only when `i < len`. -/
def utf8_nlen_loop : List Nat → Nat → Nat → Nat → Nat → Int → Option Int
  | [], len, i, _, _, bc => if i < len then none else some bc
  | b :: rest, len, i, state, codepoint, bc =>
    if i < len ∧ b ≠ 0 then
      let r := decode state codepoint b
      utf8_nlen_loop rest len (i + 1) r.1 r.2 (if r.1 = ACCEPT then (i : Int) else bc)
    else some bc

/-- The function `utf8_nlen`.  The signed index `i` is never negative, so its conversion
to `size_t` for the test `i < len` leaves its value as it is. -/
def utf8_nlen (buf : Option (List Nat)) (len : Nat) : Option Int :=
  match buf with
  | none => some (-EINVAL)
  | some s => utf8_nlen_loop s len 0 ACCEPT 0 0

/-! ## Operations that write to the buffer

They return the C return value together with the buffer as the call leaves it (the empty
list stands in for the buffer of a null pointer). -/

/-- The assignment `s[bc] = 0`: a write inside the buffer, or undefined behaviour. -/
def store (s : List Nat) (idx : Nat) (v : Nat) : Option (List Nat) :=
  if idx < s.length then some (s.set idx v) else none

/-- The function `utf8_term`. -/
def utf8_term (buf : Option (List Nat)) : Option (Int × List Nat) :=
  match utf8_len buf with
  | none => none
  | some bc =>
    if bc < 0 then some (-EINVAL, buf.getD [])
    else
      match store (buf.getD []) (bc + 1).toNat 0 with
      | none => none
      | some s1 => some (0, s1)

/-- The function `utf8_nterm`.  At the test `bc >= len` the signed `bc` is at least 1, so
its conversion to `size_t` for the comparison leaves its value as it is. -/
def utf8_nterm (buf : Option (List Nat)) (len : Nat) : Option (Int × List Nat) :=
  match utf8_nlen buf len with
  | none => none
  | some bc =>
    if bc < 0 then some (-EINVAL, buf.getD [])
    else if bc + 1 ≥ (len : Int) then some (-ENOMEM, buf.getD [])
    else
      match store (buf.getD []) (bc + 1).toNat 0 with
      | none => none
      | some s1 => some (0, s1)

/-- The library call `memmove(&s[dst], &s[src], n)`: the `n` bytes from index `src` are
copied to index `dst` as if through a temporary array. -/
def memmove (s : List Nat) (dst src n : Nat) : Option (List Nat) :=
  if src + n ≤ s.length ∧ dst + n ≤ s.length then
    some (s.take dst ++ (s.drop src).take n ++ s.drop (dst + n))
  else none

/-- Loop of `utf8_stripinval`:
`for (i = 0, l = 1, cur = 0, dst = 0; s[i]; i++, l++) { ... }`.
The first argument bounds the number of iterations; the caller passes one more than the
buffer length, which cannot run out, because `i` grows by one per iteration and a read at
`i` beyond the buffer ends the run.  Returns the buffer, `dst` and `move` at loop exit. -/
def utf8_stripinval_loop :
    Nat → List Nat → Nat → Nat → Nat → Nat → Nat → Nat → Nat → Option (List Nat × Nat × Nat)
  | 0, _, _, _, _, _, _, _, _ => none
  | fuel + 1, s, i, l, cur, dst, move, state, codepoint =>
    match s[i]? with
    | none => none
    | some b =>
      if b ≠ 0 then
        let r := decode state codepoint b
        if r.1 = ACCEPT then
          match (if move ≠ 0 then memmove s dst cur l else some s) with
          | none => none
          | some s1 =>
            utf8_stripinval_loop fuel s1 (i + 1) (0 + 1) (cur + l) (dst + l) move r.1 r.2
        else if r.1 = REJECT then
          utf8_stripinval_loop fuel s (i + 1) (0 + 1) (cur + l) dst 1 ACCEPT r.2
        else
          utf8_stripinval_loop fuel s (i + 1) (l + 1) cur dst move r.1 r.2
      else some (s, dst, move)

/-- The function `utf8_stripinval`. -/
def utf8_stripinval (buf : Option (List Nat)) : Option (Int × List Nat) :=
  match buf with
  | none => some (-EINVAL, [])
  | some s =>
    match utf8_stripinval_loop (s.length + 1) s 0 1 0 0 0 ACCEPT 0 with
    | none => none
    | some (s1, dst, move) =>
      if move ≠ 0 then
        match store s1 dst 0 with
        | none => none
        | some s2 => some (0, s2)
      else some (0, s1)

/-! ## The case-fold table and the lookup -/

/-- Range kind `BLOCK` (`#define BLOCK 0`). -/
def BLOCK : Nat := 0

/-- Range kind `ALTERNATING` (`#define ALTERNATING 1`). -/
def ALTERNATING : Nat := 1

/-- The struct `case_shift_data`: the bit-fields `type` (1 bit, unsigned), `len` (6 bits,
unsigned) and `dshift` (9 bits, signed). -/
structure case_shift_data where
  type : Nat
  len : Nat
  dshift : Int
deriving DecidableEq

/-- The struct `case_conversion_block`. -/
structure case_conversion_block where
  start : Nat
  shift : case_shift_data
deriving DecidableEq

/-- The table `g_ccb`, entry by entry (`ASCII`, `LATIN_BLK1` to `LATIN_BLK12`).  Every value
fits its bit-field. -/
def g_ccb : List case_conversion_block := [
  { start := 0x041, shift := { type := BLOCK, len := 26, dshift := 6 } },
  { start := 0x0C0, shift := { type := BLOCK, len := 23, dshift := 9 } },
  { start := 0x0D8, shift := { type := BLOCK, len := 7, dshift := 25 } },
  { start := 0x100, shift := { type := ALTERNATING, len := 55, dshift := 1 } },
  { start := 0x139, shift := { type := ALTERNATING, len := 15, dshift := 1 } },
  { start := 0x14A, shift := { type := ALTERNATING, len := 45, dshift := 1 } },
  { start := 0x179, shift := { type := ALTERNATING, len := 6, dshift := 1 } },
  { start := 0x182, shift := { type := ALTERNATING, len := 4, dshift := 1 } },
  { start := 0x187, shift := { type := ALTERNATING, len := 2, dshift := 1 } },
  { start := 0x18B, shift := { type := ALTERNATING, len := 2, dshift := 1 } },
  { start := 0x191, shift := { type := ALTERNATING, len := 2, dshift := 1 } },
  { start := 0x198, shift := { type := ALTERNATING, len := 2, dshift := 1 } },
  { start := 0x19D, shift := { type := BLOCK, len := 1, dshift := 213 } }]

/-- The function `downcase_block`: `codepoint + shift.len + shift.dshift` in 32-bit unsigned
arithmetic. -/
def downcase_block (codepoint : Nat) (shift : case_shift_data) : Nat :=
  (((codepoint : Int) + (shift.len : Int) + shift.dshift) % 2 ^ 32).toNat

/-- The function `downcase_alt`: `codepoint + shift.dshift` in 32-bit unsigned arithmetic. -/
def downcase_alt (codepoint : Nat) (shift : case_shift_data) : Nat :=
  (((codepoint : Int) + shift.dshift) % 2 ^ 32).toNat

/-- Loop of `downcase` over the entries of the table from index `i` on: `break` when the
codepoint is below the start of the entry, `continue` when it is at or beyond its end, and
fall through to the next entry when the parity test of an alternating range fails. -/
def downcase_loop (codepoint : Nat) : List case_conversion_block → Nat
  | [] => codepoint
  | blk :: rest =>
    if codepoint < blk.start then codepoint
    else if codepoint ≥ (blk.start + blk.shift.len) % 2 ^ 32 then downcase_loop codepoint rest
    else if blk.shift.type = BLOCK then downcase_block codepoint blk.shift
    else if blk.start % 2 = codepoint % 2 then downcase_alt codepoint blk.shift
    else downcase_loop codepoint rest

/-- The function `downcase`. -/
def downcase (codepoint : Nat) : Nat := downcase_loop codepoint g_ccb

/-! ## The bounded scans -/

/-- Loop of `utf8_ncheck`: `for (i = 0; i < len && s[i]; i++) decode(...)`.  The first
argument is the buffer from index `i` on; returns the final state. -/
def utf8_ncheck_loop : List Nat → Nat → Nat → Nat → Nat → Option Nat
  | [], len, i, state, _ => if i < len then none else some state
  | b :: rest, len, i, state, codepoint =>
    if i < len ∧ b ≠ 0 then
      let r := decode state codepoint b
      utf8_ncheck_loop rest len (i + 1) r.1 r.2
    else some state

/-- The function `utf8_ncheck`. -/
def utf8_ncheck (buf : Option (List Nat)) (len : Nat) : Option Int :=
  match buf with
  | none => some (-EINVAL)
  | some s =>
    if len = 0 then some (-EINVAL)
    else
      match utf8_ncheck_loop s len 0 ACCEPT 0 with
      | none => none
      | some state => some (if state = ACCEPT then 0 else 1)

/-- Loop of `utf8_ncount`. -/
def utf8_ncount_loop : List Nat → Nat → Nat → Nat → Nat → Int → Option Int
  | [], len, i, _, _, cnt => if i < len then none else some cnt
  | b :: rest, len, i, state, codepoint, cnt =>
    if i < len ∧ b ≠ 0 then
      let r := decode state codepoint b
      utf8_ncount_loop rest len (i + 1) r.1 r.2 (cnt + (if r.1 = ACCEPT then 1 else 0))
    else some cnt

/-- The function `utf8_ncount`. -/
def utf8_ncount (buf : Option (List Nat)) (len : Nat) : Option Int :=
  match buf with
  | none => some (-EINVAL)
  | some s => if len = 0 then some (-EINVAL) else utf8_ncount_loop s len 0 ACCEPT 0 0

/-- Loop of `utf8_nstripinval`:
`for (i = 0, l = 1, cur = 0, dst = 0; i < len && s[i]; i++, l++) { ... }`, the loop of
`utf8_stripinval` with the bound test in front of the read.  The first argument bounds the
number of iterations as there. -/
def utf8_nstripinval_loop :
    Nat → List Nat → Nat → Nat → Nat → Nat → Nat → Nat → Nat → Nat →
      Option (List Nat × Nat × Nat)
  | 0, _, _, _, _, _, _, _, _, _ => none
  | fuel + 1, s, len, i, l, cur, dst, move, state, codepoint =>
    if i < len then
      match s[i]? with
      | none => none
      | some b =>
        if b ≠ 0 then
          let r := decode state codepoint b
          if r.1 = ACCEPT then
            match (if move ≠ 0 then memmove s dst cur l else some s) with
            | none => none
            | some s1 =>
              utf8_nstripinval_loop fuel s1 len (i + 1) (0 + 1) (cur + l) (dst + l) move r.1 r.2
          else if r.1 = REJECT then
            utf8_nstripinval_loop fuel s len (i + 1) (0 + 1) (cur + l) dst 1 ACCEPT r.2
          else
            utf8_nstripinval_loop fuel s len (i + 1) (l + 1) cur dst move r.1 r.2
        else some (s, dst, move)
    else some (s, dst, move)

/-- The function `utf8_nstripinval`. -/
def utf8_nstripinval (buf : Option (List Nat)) (len : Nat) : Option (Int × List Nat) :=
  match buf with
  | none => some (-EINVAL, [])
  | some s =>
    match utf8_nstripinval_loop (s.length + 1) s len 0 1 0 0 0 ACCEPT 0 with
    | none => none
    | some (s1, dst, move) =>
      if move ≠ 0 then
        match store s1 dst 0 with
        | none => none
        | some s2 => some (0, s2)
      else some (0, s1)

/-! ## Case folding in place -/

/-- The writes `s[0] = ...` to `s[n - 1] = ...` that `encode` makes through the pointer
`&buf[idx]`: all inside the buffer, or undefined behaviour. -/
def store_bytes (s : List Nat) (idx : Nat) (bytes : List Nat) : Option (List Nat) :=
  if idx + bytes.length ≤ s.length then
    some (s.take idx ++ bytes ++ s.drop (idx + bytes.length))
  else none

/-- Loop of `utf8_downcase`:
`while (*s) { decode(&state, &codepoint, *s++); if (state == ACCEPT) p += encode(downcase(codepoint), p); }`.
The read pointer `s` and the write pointer `p` are the indices `si` and `p` into the one
buffer.  The first argument bounds the number of iterations; the caller passes one more
than the buffer length, which cannot run out.  Returns the buffer and both indices at loop
exit. -/
def utf8_downcase_loop :
    Nat → List Nat → Nat → Nat → Nat → Nat → Option (List Nat × Nat × Nat)
  | 0, _, _, _, _, _ => none
  | fuel + 1, buf, si, p, state, codepoint =>
    match buf[si]? with
    | none => none
    | some b =>
      if b ≠ 0 then
        let r := decode state codepoint b
        if r.1 = ACCEPT then
          match store_bytes buf p (encode (downcase r.2)) with
          | none => none
          | some buf1 =>
            utf8_downcase_loop fuel buf1 (si + 1) (p + (encode (downcase r.2)).length) r.1 r.2
        else utf8_downcase_loop fuel buf (si + 1) p r.1 r.2
      else some (buf, si, p)

/-- The function `utf8_downcase`. -/
def utf8_downcase (buf : Option (List Nat)) : Option (Int × List Nat) :=
  match buf with
  | none => some (-EINVAL, [])
  | some s =>
    match utf8_downcase_loop (s.length + 1) s 0 0 ACCEPT 0 with
    | none => none
    | some (s1, _, _) => some (0, s1)

/-! ## Specification-side definitions -/

/-- A continuation byte, `80` to `BF`. -/
def isCont (b : Nat) : Bool := 0x80 ≤ b && b ≤ 0xBF

/-- One well-formed sequence in the words of the specification: a single byte `00`-`7F`,
or a lead byte `C2`-`F4` with the matching number of continuation bytes, that is no overlong
form, no surrogate `D800`-`DFFF` and nothing above `U+10FFFF`.  Returns the codepoint of the
sequence at the head of the bytes and the bytes after it, or `none` when the bytes do not
begin with a well-formed sequence.  The value of a sequence is made of the low bits of the
lead byte followed by the low six bits of each continuation byte. -/
def specDecodeOne : List Nat → Option (Nat × List Nat)
  | [] => none
  | b0 :: rest =>
    if b0 ≤ 0x7F then some (b0, rest)
    else if 0xC2 ≤ b0 ∧ b0 ≤ 0xDF then
      match rest with
      | b1 :: r =>
        if isCont b1 then some ((b0 % 32) * 64 + b1 % 64, r) else none
      | _ => none
    else if 0xE0 ≤ b0 ∧ b0 ≤ 0xEF then
      match rest with
      | b1 :: b2 :: r =>
        let c := (b0 % 16) * 4096 + (b1 % 64) * 64 + b2 % 64
        if isCont b1 ∧ isCont b2 ∧ 0x800 ≤ c ∧ ¬ (0xD800 ≤ c ∧ c ≤ 0xDFFF) then some (c, r)
        else none
      | _ => none
    else if 0xF0 ≤ b0 ∧ b0 ≤ 0xF4 then
      match rest with
      | b1 :: b2 :: b3 :: r =>
        let c := (b0 % 8) * 262144 + (b1 % 64) * 4096 + (b2 % 64) * 64 + b3 % 64
        if isCont b1 ∧ isCont b2 ∧ isCont b3 ∧ 0x10000 ≤ c ∧ c ≤ 0x10FFFF then some (c, r)
        else none
      | _ => none
    else none

/-- A concatenation of well-formed sequences, read off one sequence at a time; the first
argument bounds the number of sequences. -/
def specDecodeAux : Nat → List Nat → Option (List Nat)
  | _, [] => some []
  | 0, _ :: _ => none
  | n + 1, b0 :: rest =>
    match specDecodeOne (b0 :: rest) with
    | none => none
    | some (c, r) =>
      match specDecodeAux n r with
      | none => none
      | some cs => some (c :: cs)

/-- Well-formed standard UTF-8 in the words of the specification, as a decoder: the
codepoints the bytes encode, or `none` when the bytes are not a concatenation of
well-formed sequences.  Every sequence has at least one byte, so the number of bytes
bounds the number of sequences. -/
def specDecode (bytes : List Nat) : Option (List Nat) := specDecodeAux bytes.length bytes

/-- Well-formed standard UTF-8: the bytes decode under `specDecode`. -/
def wellFormed (bytes : List Nat) : Bool := (specDecode bytes).isSome

/-- The bytes of a zero-terminated buffer before its first zero byte. -/
def content (s : List Nat) : List Nat := s.takeWhile (fun b => b ≠ 0)

/-- A Unicode scalar value other than zero: `1` to `10FFFF` without the surrogates. -/
def isScalar (c : Nat) : Prop := 1 ≤ c ∧ c ≤ 0x10FFFF ∧ ¬ (0xD800 ≤ c ∧ c ≤ 0xDFFF)

instance (c : Nat) : Decidable (isScalar c) := by
  unfold isScalar
  infer_instance

/-- The automaton state after feeding `bytes` from `state`, one `decode` per byte. -/
def run : Nat → Nat → List Nat → Nat × Nat
  | state, codep, [] => (state, codep)
  | state, codep, b :: rest => run (decode state codep b).1 (decode state codep b).2 rest

/-- The codepoints a scan of `bytes` from `state` reports: the accumulator after every
step that ends in `ACCEPT`, in order. -/
def accepted : Nat → Nat → List Nat → List Nat
  | _, _, [] => []
  | state, codep, b :: rest =>
    if (decode state codep b).1 = ACCEPT then
      (decode state codep b).2 :: accepted (decode state codep b).1 (decode state codep b).2 rest
    else accepted (decode state codep b).1 (decode state codep b).2 rest

/-- The scan of `bytes` from `state` enters `REJECT` at some byte. -/
def visitsReject : Nat → Nat → List Nat → Bool
  | _, _, [] => false
  | state, codep, b :: rest =>
    (decode state codep b).1 == REJECT ||
      visitsReject (decode state codep b).1 (decode state codep b).2 rest

/-- What a scan from `ACCEPT` does on bytes that are, or are not, well-formed. -/
def ScanSpec (l : List Nat) : Prop :=
  (∀ cs, specDecode l = some cs →
    (run 0 0 l).1 = 0 ∧ accepted 0 0 l = cs ∧ visitsReject 0 0 l = false) ∧
  (specDecode l = none → (run 0 0 l).1 ≠ 0)

/-- The value `bc` holds when the loop of `utf8_len` stops after the bytes given, which are
the bytes from index `i` up to the stop: the index of the last byte whose step ended in
`ACCEPT`, or the incoming `bc` when there was none. -/
def lastAccept : Nat → Nat → List Nat → Nat → Int → Int
  | _, _, [], _, bc => bc
  | state, codep, b :: rest, i, bc =>
    lastAccept (decode state codep b).1 (decode state codep b).2 rest (i + 1)
      (if (decode state codep b).1 = ACCEPT then (i : Int) else bc)

/-- The bytes `l` hold no zero, and a scan of them from `ACCEPT` never enters `REJECT` and
ends in state `st`. -/
def Steady (st : Nat) (l : List Nat) : Prop :=
  (∀ b ∈ l, b ≠ 0) ∧ visitsReject 0 0 l = false ∧ (run 0 0 l).1 = st

/-- The codepoint `c` lies in the range of the table entry `blk`. -/
def inRange (blk : case_conversion_block) (c : Nat) : Prop :=
  blk.start ≤ c ∧ c < blk.start + blk.shift.len

instance (blk : case_conversion_block) (c : Nat) : Decidable (inRange blk c) := by
  unfold inRange
  infer_instance

/-- The ASCII case map of a byte: `A`..`Z` to `a`..`z`, every other byte to itself. -/
def asciiLower (b : Nat) : Nat := if 0x41 ≤ b ∧ b ≤ 0x5A then b + 32 else b

/-- The bytes `utf8_downcase` writes for the codepoints `cs`: the encodings of their
case-folded values, one after the other. -/
def downcaseBytes (cs : List Nat) : List Nat := (cs.map downcase).flatMap encode

/-! ## The decode step, byte by byte -/

theorem decode_fst (st cp b : Nat) : (decode st cp b).1 = (decode st 0 b).1 := rfl

theorem decode_accept_snd (cp b : Nat) : (decode 0 cp b).2 = (decode 0 0 b).2 := rfl

set_option maxRecDepth 100000 in
theorem decode_accept_state_aux : ∀ b < 256, (decode 0 0 b).1 =
    if b < 0x80 then 0 else if b < 0xC2 then 12 else if b < 0xE0 then 24
    else if b = 0xE0 then 48 else if b = 0xED then 60 else if b < 0xF0 then 36
    else if b = 0xF0 then 72 else if b < 0xF4 then 84 else if b = 0xF4 then 96 else 12 := by
  decide

set_option maxRecDepth 100000 in
theorem decode_accept_codep_aux : ∀ b < 256, (decode 0 0 b).2 =
    if b < 0x80 then b else if b < 0xC2 then (decode 0 0 b).2 else if b < 0xE0 then b % 32
    else if b < 0xF0 then b % 16 else if b < 0xF5 then b % 8 else (decode 0 0 b).2 := by
  decide

set_option maxRecDepth 100000 in
theorem decode_cont_state_aux : ∀ b < 256,
    (decode 12 0 b).1 = 12 ∧
    (decode 24 0 b).1 = (if 0x80 ≤ b ∧ b ≤ 0xBF then 0 else 12) ∧
    (decode 36 0 b).1 = (if 0x80 ≤ b ∧ b ≤ 0xBF then 24 else 12) ∧
    (decode 48 0 b).1 = (if 0xA0 ≤ b ∧ b ≤ 0xBF then 24 else 12) ∧
    (decode 60 0 b).1 = (if 0x80 ≤ b ∧ b ≤ 0x9F then 24 else 12) ∧
    (decode 72 0 b).1 = (if 0x90 ≤ b ∧ b ≤ 0xBF then 36 else 12) ∧
    (decode 84 0 b).1 = (if 0x80 ≤ b ∧ b ≤ 0xBF then 36 else 12) ∧
    (decode 96 0 b).1 = (if 0x80 ≤ b ∧ b ≤ 0x8F then 36 else 12) := by
  decide

/-! ## The scan against the specification decoder -/

theorem decode_mod (st cp b : Nat) : decode st cp b = decode st cp (b % 256) := by
  simp [decode]

theorem decode_reject (cp b : Nat) : (decode 12 cp b).1 = 12 := by
  rw [decode_mod, decode_fst]
  exact (decode_cont_state_aux (b % 256) (Nat.mod_lt _ (by norm_num))).1

theorem and_63 (b : Nat) : b &&& 0x3f = b % 64 := Nat.and_pow_two_sub_one_eq_mod b 6

theorem decode_cont_codep (st cp b : Nat) (hst : st ≠ 0) (hcp : cp < 2 ^ 26) (hb : b < 256) :
    (decode st cp b).2 = cp * 64 + b % 64 := by
  have h1 : (decode st cp b).2 = ((b &&& 0x3f) ||| ((cp <<< 6) % 2 ^ 32)) := by
    unfold decode
    simp only [ACCEPT]
    rw [if_pos hst, Nat.mod_eq_of_lt hb]
  have h2 : cp * 2 ^ 6 < 2 ^ 32 := by omega
  rw [h1, and_63, Nat.shiftLeft_eq, Nat.mod_eq_of_lt h2, Nat.lor_comm]
  have := Nat.mul_add_lt_is_or (show b % 64 < 2 ^ 6 by omega) cp
  rw [Nat.mul_comm] at this
  exact this.symm

theorem run_reject (cp : Nat) (l : List Nat) : (run 12 cp l).1 = 12 := by
  induction l generalizing cp with
  | nil => rfl
  | cons b l ih =>
    simp only [run]
    rw [decode_reject]
    exact ih _

theorem decode_accept_eq (cp b : Nat) (_hb : b < 256) :
    decode 0 cp b = ((decode 0 0 b).1, (decode 0 0 b).2) := rfl

theorem dec0_ascii (cp b : Nat) (h : b ≤ 0x7F) : decode 0 cp b = (0, b) := by
  have hb : b < 256 := by omega
  rw [decode_accept_eq cp b hb, decode_accept_state_aux b hb, decode_accept_codep_aux b hb]
  simp only [show b < 0x80 by omega, if_true]

theorem dec0_lead2 (cp b : Nat) (h1 : 0xC2 ≤ b) (h2 : b ≤ 0xDF) : decode 0 cp b = (24, b % 32) := by
  have hb : b < 256 := by omega
  rw [decode_accept_eq cp b hb, decode_accept_state_aux b hb, decode_accept_codep_aux b hb]
  simp only [show ¬ b < 0x80 by omega, show ¬ b < 0xC2 by omega, show b < 0xE0 by omega,
    if_true, if_false]

theorem dec0_lead3 (cp b : Nat) (h1 : 0xE0 ≤ b) (h2 : b ≤ 0xEF) :
    decode 0 cp b = (if b = 0xE0 then 48 else if b = 0xED then 60 else 36, b % 16) := by
  have hb : b < 256 := by omega
  rw [decode_accept_eq cp b hb, decode_accept_state_aux b hb, decode_accept_codep_aux b hb]
  simp only [show ¬ b < 0x80 by omega, show ¬ b < 0xC2 by omega, show ¬ b < 0xE0 by omega,
    show b < 0xF0 by omega, if_true, if_false]

theorem dec0_lead4 (cp b : Nat) (h1 : 0xF0 ≤ b) (h2 : b ≤ 0xF4) :
    decode 0 cp b = (if b = 0xF0 then 72 else if b = 0xF4 then 96 else 84, b % 8) := by
  have hb : b < 256 := by omega
  rw [decode_accept_eq cp b hb, decode_accept_state_aux b hb, decode_accept_codep_aux b hb]
  simp only [show ¬ b < 0x80 by omega, show ¬ b < 0xC2 by omega, show ¬ b < 0xE0 by omega,
    show ¬ b < 0xF0 by omega, show b < 0xF5 by omega, show ¬ b = 0xE0 by omega,
    show ¬ b = 0xED by omega, if_true, if_false]
  congr 1
  split_ifs <;> first | rfl | omega

theorem dec0_bad (cp b : Nat) (hb : b < 256) (h1 : ¬ b ≤ 0x7F) (h2 : ¬ (0xC2 ≤ b ∧ b ≤ 0xDF))
    (h3 : ¬ (0xE0 ≤ b ∧ b ≤ 0xEF)) (h4 : ¬ (0xF0 ≤ b ∧ b ≤ 0xF4)) :
    (decode 0 cp b).1 = 12 := by
  rw [decode_fst, decode_accept_state_aux b hb]
  split_ifs <;> first | rfl | omega

theorem dec_24 (cp b : Nat) (hb : b < 256) (hcp : cp < 2 ^ 26) :
    decode 24 cp b = (if 0x80 ≤ b ∧ b ≤ 0xBF then 0 else 12, cp * 64 + b % 64) :=
  Prod.ext (by rw [decode_fst]; exact (decode_cont_state_aux b hb).2.1)
    (decode_cont_codep 24 cp b (by decide) hcp hb)

theorem dec_36 (cp b : Nat) (hb : b < 256) (hcp : cp < 2 ^ 26) :
    decode 36 cp b = (if 0x80 ≤ b ∧ b ≤ 0xBF then 24 else 12, cp * 64 + b % 64) :=
  Prod.ext (by rw [decode_fst]; exact (decode_cont_state_aux b hb).2.2.1)
    (decode_cont_codep 36 cp b (by decide) hcp hb)

theorem dec_48 (cp b : Nat) (hb : b < 256) (hcp : cp < 2 ^ 26) :
    decode 48 cp b = (if 0xA0 ≤ b ∧ b ≤ 0xBF then 24 else 12, cp * 64 + b % 64) :=
  Prod.ext (by rw [decode_fst]; exact (decode_cont_state_aux b hb).2.2.2.1)
    (decode_cont_codep 48 cp b (by decide) hcp hb)

theorem dec_60 (cp b : Nat) (hb : b < 256) (hcp : cp < 2 ^ 26) :
    decode 60 cp b = (if 0x80 ≤ b ∧ b ≤ 0x9F then 24 else 12, cp * 64 + b % 64) :=
  Prod.ext (by rw [decode_fst]; exact (decode_cont_state_aux b hb).2.2.2.2.1)
    (decode_cont_codep 60 cp b (by decide) hcp hb)

theorem dec_72 (cp b : Nat) (hb : b < 256) (hcp : cp < 2 ^ 26) :
    decode 72 cp b = (if 0x90 ≤ b ∧ b ≤ 0xBF then 36 else 12, cp * 64 + b % 64) :=
  Prod.ext (by rw [decode_fst]; exact (decode_cont_state_aux b hb).2.2.2.2.2.1)
    (decode_cont_codep 72 cp b (by decide) hcp hb)

theorem dec_84 (cp b : Nat) (hb : b < 256) (hcp : cp < 2 ^ 26) :
    decode 84 cp b = (if 0x80 ≤ b ∧ b ≤ 0xBF then 36 else 12, cp * 64 + b % 64) :=
  Prod.ext (by rw [decode_fst]; exact (decode_cont_state_aux b hb).2.2.2.2.2.2.1)
    (decode_cont_codep 84 cp b (by decide) hcp hb)

theorem dec_96 (cp b : Nat) (hb : b < 256) (hcp : cp < 2 ^ 26) :
    decode 96 cp b = (if 0x80 ≤ b ∧ b ≤ 0x8F then 36 else 12, cp * 64 + b % 64) :=
  Prod.ext (by rw [decode_fst]; exact (decode_cont_state_aux b hb).2.2.2.2.2.2.2)
    (decode_cont_codep 96 cp b (by decide) hcp hb)

theorem decode_accept_irrel (cp b : Nat) : decode 0 cp b = decode 0 0 b := rfl

theorem run_accept_irrel (cp : Nat) (l : List Nat) : (run 0 cp l).1 = (run 0 0 l).1 := by
  cases l with
  | nil => rfl
  | cons b l => simp only [run, decode_accept_irrel cp b]

theorem accepted_accept_irrel (cp : Nat) (l : List Nat) : accepted 0 cp l = accepted 0 0 l := by
  cases l with
  | nil => rfl
  | cons b l => simp only [accepted, decode_accept_irrel cp b]

theorem visitsReject_accept_irrel (cp : Nat) (l : List Nat) :
    visitsReject 0 cp l = visitsReject 0 0 l := by
  cases l with
  | nil => rfl
  | cons b l => simp only [visitsReject, decode_accept_irrel cp b]


theorem specDecodeOne_ascii (b0 : Nat) (rest : List Nat) (h : b0 ≤ 0x7F) :
    specDecodeOne (b0 :: rest) = some (b0, rest) := by
  simp only [specDecodeOne, h, if_true]

theorem specDecodeOne_lead2 (b0 b1 : Nat) (r : List Nat) (h1 : 0xC2 ≤ b0) (h2 : b0 ≤ 0xDF) :
    specDecodeOne (b0 :: b1 :: r) =
      if isCont b1 then some ((b0 % 32) * 64 + b1 % 64, r) else none := by
  simp only [specDecodeOne, show ¬ b0 ≤ 0x7F by omega, h1, h2, and_self, if_true, if_false]

theorem specDecodeOne_lead2_short (b0 : Nat) (h1 : 0xC2 ≤ b0) (h2 : b0 ≤ 0xDF) :
    specDecodeOne [b0] = none := by
  simp only [specDecodeOne, show ¬ b0 ≤ 0x7F by omega, h1, h2, and_self, if_true, if_false]

theorem specDecodeOne_lead3 (b0 b1 b2 : Nat) (r : List Nat) (h1 : 0xE0 ≤ b0) (h2 : b0 ≤ 0xEF) :
    specDecodeOne (b0 :: b1 :: b2 :: r) =
      if isCont b1 ∧ isCont b2 ∧ 0x800 ≤ (b0 % 16) * 4096 + (b1 % 64) * 64 + b2 % 64 ∧
          ¬ (0xD800 ≤ (b0 % 16) * 4096 + (b1 % 64) * 64 + b2 % 64 ∧
            (b0 % 16) * 4096 + (b1 % 64) * 64 + b2 % 64 ≤ 0xDFFF) then
        some ((b0 % 16) * 4096 + (b1 % 64) * 64 + b2 % 64, r)
      else none := by
  simp only [specDecodeOne, show ¬ b0 ≤ 0x7F by omega, show ¬ (0xC2 ≤ b0 ∧ b0 ≤ 0xDF) by omega,
    h1, h2, and_self, if_true, if_false]

theorem specDecodeOne_lead3_short (b0 : Nat) (l : List Nat) (h1 : 0xE0 ≤ b0) (h2 : b0 ≤ 0xEF)
    (hl : l.length < 2) : specDecodeOne (b0 :: l) = none := by
  rcases l with _ | ⟨b1, _ | ⟨b2, r⟩⟩
  · simp only [specDecodeOne, show ¬ b0 ≤ 0x7F by omega,
      show ¬ (0xC2 ≤ b0 ∧ b0 ≤ 0xDF) by omega, h1, h2, and_self, if_true, if_false]
  · simp only [specDecodeOne, show ¬ b0 ≤ 0x7F by omega,
      show ¬ (0xC2 ≤ b0 ∧ b0 ≤ 0xDF) by omega, h1, h2, and_self, if_true, if_false]
  · simp only [List.length_cons] at hl; omega

theorem specDecodeOne_lead4 (b0 b1 b2 b3 : Nat) (r : List Nat) (h1 : 0xF0 ≤ b0)
    (h2 : b0 ≤ 0xF4) :
    specDecodeOne (b0 :: b1 :: b2 :: b3 :: r) =
      if isCont b1 ∧ isCont b2 ∧ isCont b3 ∧
          0x10000 ≤ (b0 % 8) * 262144 + (b1 % 64) * 4096 + (b2 % 64) * 64 + b3 % 64 ∧
          (b0 % 8) * 262144 + (b1 % 64) * 4096 + (b2 % 64) * 64 + b3 % 64 ≤ 0x10FFFF then
        some ((b0 % 8) * 262144 + (b1 % 64) * 4096 + (b2 % 64) * 64 + b3 % 64, r)
      else none := by
  simp only [specDecodeOne, show ¬ b0 ≤ 0x7F by omega, show ¬ (0xC2 ≤ b0 ∧ b0 ≤ 0xDF) by omega,
    show ¬ (0xE0 ≤ b0 ∧ b0 ≤ 0xEF) by omega, h1, h2, and_self, if_true, if_false]

theorem specDecodeOne_lead4_short (b0 : Nat) (l : List Nat) (h1 : 0xF0 ≤ b0) (h2 : b0 ≤ 0xF4)
    (hl : l.length < 3) : specDecodeOne (b0 :: l) = none := by
  rcases l with _ | ⟨b1, _ | ⟨b2, _ | ⟨b3, r⟩⟩⟩
  · simp only [specDecodeOne, show ¬ b0 ≤ 0x7F by omega,
      show ¬ (0xC2 ≤ b0 ∧ b0 ≤ 0xDF) by omega, show ¬ (0xE0 ≤ b0 ∧ b0 ≤ 0xEF) by omega,
      h1, h2, and_self, if_true, if_false]
  · simp only [specDecodeOne, show ¬ b0 ≤ 0x7F by omega,
      show ¬ (0xC2 ≤ b0 ∧ b0 ≤ 0xDF) by omega, show ¬ (0xE0 ≤ b0 ∧ b0 ≤ 0xEF) by omega,
      h1, h2, and_self, if_true, if_false]
  · simp only [specDecodeOne, show ¬ b0 ≤ 0x7F by omega,
      show ¬ (0xC2 ≤ b0 ∧ b0 ≤ 0xDF) by omega, show ¬ (0xE0 ≤ b0 ∧ b0 ≤ 0xEF) by omega,
      h1, h2, and_self, if_true, if_false]
  · simp only [List.length_cons] at hl; omega

theorem specDecodeOne_bad (b0 : Nat) (l : List Nat) (h1 : ¬ b0 ≤ 0x7F)
    (h2 : ¬ (0xC2 ≤ b0 ∧ b0 ≤ 0xDF)) (h3 : ¬ (0xE0 ≤ b0 ∧ b0 ≤ 0xEF))
    (h4 : ¬ (0xF0 ≤ b0 ∧ b0 ≤ 0xF4)) : specDecodeOne (b0 :: l) = none := by
  simp only [specDecodeOne, h1, h2, h3, h4, if_false]

theorem specDecodeOne_length (l : List Nat) (c : Nat) (r : List Nat)
    (h : specDecodeOne l = some (c, r)) : r.length < l.length := by
  rcases l with _ | ⟨b0, rest⟩
  · simp [specDecodeOne] at h
  · by_cases h1 : b0 ≤ 0x7F
    · rw [specDecodeOne_ascii b0 rest h1] at h
      simp only [Option.some.injEq, Prod.mk.injEq] at h
      rw [← h.2]; simp
    by_cases h2 : 0xC2 ≤ b0 ∧ b0 ≤ 0xDF
    · rcases rest with _ | ⟨b1, r1⟩
      · rw [specDecodeOne_lead2_short b0 h2.1 h2.2] at h; simp at h
      · rw [specDecodeOne_lead2 b0 b1 r1 h2.1 h2.2] at h
        split_ifs at h
        simp only [Option.some.injEq, Prod.mk.injEq] at h
        rw [← h.2]; simp; omega
    by_cases h3 : 0xE0 ≤ b0 ∧ b0 ≤ 0xEF
    · rcases rest with _ | ⟨b1, _ | ⟨b2, r1⟩⟩
      · rw [specDecodeOne_lead3_short b0 _ h3.1 h3.2 (by simp)] at h; simp at h
      · rw [specDecodeOne_lead3_short b0 _ h3.1 h3.2 (by simp)] at h; simp at h
      · rw [specDecodeOne_lead3 b0 b1 b2 r1 h3.1 h3.2] at h
        split_ifs at h
        simp only [Option.some.injEq, Prod.mk.injEq] at h
        rw [← h.2]; simp; omega
    by_cases h4 : 0xF0 ≤ b0 ∧ b0 ≤ 0xF4
    · rcases rest with _ | ⟨b1, _ | ⟨b2, _ | ⟨b3, r1⟩⟩⟩
      · rw [specDecodeOne_lead4_short b0 _ h4.1 h4.2 (by simp)] at h; simp at h
      · rw [specDecodeOne_lead4_short b0 _ h4.1 h4.2 (by simp)] at h; simp at h
      · rw [specDecodeOne_lead4_short b0 _ h4.1 h4.2 (by simp)] at h; simp at h
      · rw [specDecodeOne_lead4 b0 b1 b2 b3 r1 h4.1 h4.2] at h
        split_ifs at h
        simp only [Option.some.injEq, Prod.mk.injEq] at h
        rw [← h.2]; simp; omega
    rw [specDecodeOne_bad b0 rest h1 h2 h3 h4] at h
    simp at h

theorem specDecodeAux_fuel (n : Nat) : ∀ (l : List Nat), l.length ≤ n →
    specDecodeAux n l = specDecodeAux l.length l := by
  induction n using Nat.strong_induction_on with
  | _ n ih =>
    intro l hl
    rcases l with _ | ⟨b0, rest⟩
    · cases n <;> rfl
    · rcases n with _ | n
      · simp only [List.length_cons] at hl; omega
      · simp only [List.length_cons, specDecodeAux]
        cases hone : specDecodeOne (b0 :: rest) with
        | none => rfl
        | some p =>
          obtain ⟨c, r⟩ := p
          have hr := specDecodeOne_length _ _ _ hone
          simp only [List.length_cons] at hr hl
          simp only
          rw [ih n (by omega) r (by omega), ih rest.length (by omega) r (by omega)]

theorem specDecode_nil : specDecode [] = some [] := rfl

theorem specDecode_cons (b0 : Nat) (rest : List Nat) : specDecode (b0 :: rest) =
    match specDecodeOne (b0 :: rest) with
    | none => none
    | some (c, r) => (specDecode r).map (fun cs => c :: cs) := by
  unfold specDecode
  simp only [List.length_cons, specDecodeAux]
  cases hone : specDecodeOne (b0 :: rest) with
  | none => rfl
  | some p =>
    obtain ⟨c, r⟩ := p
    have hr := specDecodeOne_length _ _ _ hone
    simp only [List.length_cons] at hr
    simp only
    rw [specDecodeAux_fuel rest.length r (by omega)]
    cases specDecodeAux r.length r <;> rfl


theorem scanSpec_nil : ScanSpec [] :=
  ⟨fun cs h => by
    rw [specDecode_nil] at h
    simp only [Option.some.injEq] at h
    subst h
    exact ⟨rfl, rfl, rfl⟩, fun h => by rw [specDecode_nil] at h; simp at h⟩

theorem scanSpec_fail (b0 : Nat) (rest : List Nat) (hone : specDecodeOne (b0 :: rest) = none)
    (hrun : (run 0 0 (b0 :: rest)).1 ≠ 0) : ScanSpec (b0 :: rest) := by
  have h : specDecode (b0 :: rest) = none := by rw [specDecode_cons, hone]
  exact ⟨fun cs hcs => by rw [h] at hcs; simp at hcs, fun _ => hrun⟩

theorem scanSpec_step (b0 : Nat) (rest r : List Nat) (c : Nat)
    (hone : specDecodeOne (b0 :: rest) = some (c, r))
    (hrun : (run 0 0 (b0 :: rest)).1 = (run 0 c r).1)
    (hacc : accepted 0 0 (b0 :: rest) = c :: accepted 0 c r)
    (hvis : visitsReject 0 0 (b0 :: rest) = visitsReject 0 c r)
    (ih : ScanSpec r) : ScanSpec (b0 :: rest) := by
  have h : specDecode (b0 :: rest) = (specDecode r).map (fun cs => c :: cs) := by
    rw [specDecode_cons, hone]
  rw [run_accept_irrel c r] at hrun
  rw [accepted_accept_irrel c r] at hacc
  rw [visitsReject_accept_irrel c r] at hvis
  unfold ScanSpec
  rw [h, hrun, hacc, hvis]
  cases hs : specDecode r with
  | none => exact ⟨fun cs hcs => by simp at hcs, fun _ => ih.2 hs⟩
  | some cs0 =>
    obtain ⟨h1, h2, h3⟩ := ih.1 cs0 hs
    refine ⟨fun cs hcs => ?_, fun hn => by simp at hn⟩
    simp only [Option.map_some', Option.some.injEq] at hcs
    subst hcs
    exact ⟨h1, by rw [h2], h3⟩

theorem run_cons (st cp b : Nat) (l : List Nat) :
    run st cp (b :: l) = run (decode st cp b).1 (decode st cp b).2 l := rfl

theorem accepted_cons (st cp b : Nat) (l : List Nat) :
    accepted st cp (b :: l) =
      if (decode st cp b).1 = 0 then
        (decode st cp b).2 :: accepted (decode st cp b).1 (decode st cp b).2 l
      else accepted (decode st cp b).1 (decode st cp b).2 l := rfl

theorem visitsReject_cons (st cp b : Nat) (l : List Nat) :
    visitsReject st cp (b :: l) =
      ((decode st cp b).1 == 12 ||
        visitsReject (decode st cp b).1 (decode st cp b).2 l) := rfl

theorem scanSpec_lead3 (b0 st0 lo hi : Nat) (rest : List Nat) (hb : ∀ b ∈ rest, b < 256)
    (h3 : 0xE0 ≤ b0 ∧ b0 ≤ 0xEF) (hd0 : decode 0 0 b0 = (st0, b0 % 16)) (hst0 : st0 ≠ 0)
    (hst12 : st0 ≠ 12)
    (hd1 : ∀ b1, b1 < 256 → decode st0 (b0 % 16) b1 =
      (if lo ≤ b1 ∧ b1 ≤ hi then 24 else 12, (b0 % 16) * 64 + b1 % 64))
    (hrng : ∀ b1 b2, b1 < 256 → b2 < 256 →
      (((lo ≤ b1 ∧ b1 ≤ hi) ∧ (0x80 ≤ b2 ∧ b2 ≤ 0xBF)) ↔
        ((0x80 ≤ b1 ∧ b1 ≤ 0xBF) ∧ (0x80 ≤ b2 ∧ b2 ≤ 0xBF) ∧
          0x800 ≤ (b0 % 16) * 4096 + (b1 % 64) * 64 + b2 % 64 ∧
          ¬ (0xD800 ≤ (b0 % 16) * 4096 + (b1 % 64) * 64 + b2 % 64 ∧
            (b0 % 16) * 4096 + (b1 % 64) * 64 + b2 % 64 ≤ 0xDFFF))))
    (ih : ∀ r : List Nat, r.length < rest.length → (∀ b ∈ r, b < 256) → ScanSpec r) :
    ScanSpec (b0 :: rest) := by
  rcases rest with _ | ⟨b1, _ | ⟨b2, r⟩⟩
  · refine scanSpec_fail b0 [] (specDecodeOne_lead3_short b0 _ h3.1 h3.2 (by simp)) ?_
    rw [run_cons, hd0]
    exact hst0
  · have hb1 : b1 < 256 := hb b1 (by simp)
    refine scanSpec_fail b0 [b1] (specDecodeOne_lead3_short b0 _ h3.1 h3.2 (by simp)) ?_
    rw [run_cons, hd0, run_cons, hd1 b1 hb1]
    simp only [run]
    split_ifs <;> decide
  have hb1 : b1 < 256 := hb b1 (by simp)
  have hb2 : b2 < 256 := hb b2 (by simp)
  have hd1 := hd1 b1 hb1
  have hrng := hrng b1 b2 hb1 hb2
  have hone := specDecodeOne_lead3 b0 b1 b2 r h3.1 h3.2
  simp only [isCont, Bool.and_eq_true, decide_eq_true_eq] at hone
  by_cases hc1 : lo ≤ b1 ∧ b1 ≤ hi
  · rw [if_pos hc1] at hd1
    have hd2 := dec_24 ((b0 % 16) * 64 + b1 % 64) b2 hb2 (by omega)
    by_cases hc2 : 0x80 ≤ b2 ∧ b2 ≤ 0xBF
    · rw [if_pos hc2] at hd2
      rw [if_pos (hrng.1 ⟨hc1, hc2⟩)] at hone
      have hcp : (b0 % 16 * 64 + b1 % 64) * 64 + b2 % 64 =
          b0 % 16 * 4096 + b1 % 64 * 64 + b2 % 64 := by omega
      rw [hcp] at hd2
      refine scanSpec_step b0 (b1 :: b2 :: r) r _ hone ?_ ?_ ?_
        (ih r (by simp only [List.length_cons]; omega) (fun b hbm => hb b (by simp [hbm])))
      · rw [run_cons, hd0, run_cons, hd1, run_cons, hd2]
      · rw [accepted_cons, hd0, accepted_cons, hd1, accepted_cons, hd2]
        simp only [hst0, if_false, if_true]
        rfl
      · rw [visitsReject_cons, hd0, visitsReject_cons, hd1, visitsReject_cons, hd2]
        simp [hst12]
    · rw [if_neg hc2] at hd2
      rw [if_neg (fun h => hc2 (hrng.2 h).2)] at hone
      refine scanSpec_fail b0 _ hone ?_
      rw [run_cons, hd0, run_cons, hd1, run_cons, hd2, run_reject]
      decide
  · rw [if_neg hc1] at hd1
    rw [if_neg (fun h => hc1 (hrng.2 h).1)] at hone
    refine scanSpec_fail b0 _ hone ?_
    rw [run_cons, hd0, run_cons, hd1, run_reject]
    decide

theorem scanSpec_lead4 (b0 st0 lo hi : Nat) (rest : List Nat) (hb : ∀ b ∈ rest, b < 256)
    (h4 : 0xF0 ≤ b0 ∧ b0 ≤ 0xF4) (hd0 : decode 0 0 b0 = (st0, b0 % 8)) (hst0 : st0 ≠ 0)
    (hst12 : st0 ≠ 12)
    (hd1 : ∀ b1, b1 < 256 → decode st0 (b0 % 8) b1 =
      (if lo ≤ b1 ∧ b1 ≤ hi then 36 else 12, (b0 % 8) * 64 + b1 % 64))
    (hrng : ∀ b1 b2 b3, b1 < 256 → b2 < 256 → b3 < 256 →
      (((lo ≤ b1 ∧ b1 ≤ hi) ∧ (0x80 ≤ b2 ∧ b2 ≤ 0xBF) ∧ (0x80 ≤ b3 ∧ b3 ≤ 0xBF)) ↔
        ((0x80 ≤ b1 ∧ b1 ≤ 0xBF) ∧ (0x80 ≤ b2 ∧ b2 ≤ 0xBF) ∧ (0x80 ≤ b3 ∧ b3 ≤ 0xBF) ∧
          0x10000 ≤ (b0 % 8) * 262144 + (b1 % 64) * 4096 + (b2 % 64) * 64 + b3 % 64 ∧
          (b0 % 8) * 262144 + (b1 % 64) * 4096 + (b2 % 64) * 64 + b3 % 64 ≤ 0x10FFFF)))
    (ih : ∀ r : List Nat, r.length < rest.length → (∀ b ∈ r, b < 256) → ScanSpec r) :
    ScanSpec (b0 :: rest) := by
  rcases rest with _ | ⟨b1, _ | ⟨b2, _ | ⟨b3, r⟩⟩⟩
  · refine scanSpec_fail b0 [] (specDecodeOne_lead4_short b0 _ h4.1 h4.2 (by simp)) ?_
    rw [run_cons, hd0]
    exact hst0
  · have hb1 : b1 < 256 := hb b1 (by simp)
    refine scanSpec_fail b0 [b1] (specDecodeOne_lead4_short b0 _ h4.1 h4.2 (by simp)) ?_
    rw [run_cons, hd0, run_cons, hd1 b1 hb1]
    simp only [run]
    split_ifs <;> decide
  · have hb1 : b1 < 256 := hb b1 (by simp)
    have hb2 : b2 < 256 := hb b2 (by simp)
    refine scanSpec_fail b0 [b1, b2] (specDecodeOne_lead4_short b0 _ h4.1 h4.2 (by simp)) ?_
    rw [run_cons, hd0, run_cons, hd1 b1 hb1]
    by_cases hc1 : lo ≤ b1 ∧ b1 ≤ hi
    · rw [if_pos hc1, run_cons, dec_36 _ b2 hb2 (by omega)]
      simp only [run]
      split_ifs <;> decide
    · rw [if_neg hc1, run_reject]
      decide
  have hb1 : b1 < 256 := hb b1 (by simp)
  have hb2 : b2 < 256 := hb b2 (by simp)
  have hb3 : b3 < 256 := hb b3 (by simp)
  have hd1 := hd1 b1 hb1
  have hrng := hrng b1 b2 b3 hb1 hb2 hb3
  have hone := specDecodeOne_lead4 b0 b1 b2 b3 r h4.1 h4.2
  simp only [isCont, Bool.and_eq_true, decide_eq_true_eq] at hone
  by_cases hc1 : lo ≤ b1 ∧ b1 ≤ hi
  · rw [if_pos hc1] at hd1
    have hd2 := dec_36 ((b0 % 8) * 64 + b1 % 64) b2 hb2 (by omega)
    by_cases hc2 : 0x80 ≤ b2 ∧ b2 ≤ 0xBF
    · rw [if_pos hc2] at hd2
      have hd3 := dec_24 (((b0 % 8) * 64 + b1 % 64) * 64 + b2 % 64) b3 hb3 (by omega)
      by_cases hc3 : 0x80 ≤ b3 ∧ b3 ≤ 0xBF
      · rw [if_pos hc3] at hd3
        rw [if_pos (hrng.1 ⟨hc1, hc2, hc3⟩)] at hone
        have hcp : ((b0 % 8 * 64 + b1 % 64) * 64 + b2 % 64) * 64 + b3 % 64 =
            b0 % 8 * 262144 + b1 % 64 * 4096 + b2 % 64 * 64 + b3 % 64 := by omega
        rw [hcp] at hd3
        refine scanSpec_step b0 (b1 :: b2 :: b3 :: r) r _ hone ?_ ?_ ?_
          (ih r (by simp only [List.length_cons]; omega) (fun b hbm => hb b (by simp [hbm])))
        · rw [run_cons, hd0, run_cons, hd1, run_cons, hd2, run_cons, hd3]
        · rw [accepted_cons, hd0, accepted_cons, hd1, accepted_cons, hd2, accepted_cons, hd3]
          simp only [hst0, if_false, if_true]
          rfl
        · rw [visitsReject_cons, hd0, visitsReject_cons, hd1, visitsReject_cons, hd2,
            visitsReject_cons, hd3]
          simp [hst12]
      · rw [if_neg hc3] at hd3
        rw [if_neg (fun h => hc3 (hrng.2 h).2.2)] at hone
        refine scanSpec_fail b0 _ hone ?_
        rw [run_cons, hd0, run_cons, hd1, run_cons, hd2, run_cons, hd3, run_reject]
        decide
    · rw [if_neg hc2] at hd2
      rw [if_neg (fun h => hc2 (hrng.2 h).2.1)] at hone
      refine scanSpec_fail b0 _ hone ?_
      rw [run_cons, hd0, run_cons, hd1, run_cons, hd2, run_reject]
      decide
  · rw [if_neg hc1] at hd1
    rw [if_neg (fun h => hc1 (hrng.2 h).1)] at hone
    refine scanSpec_fail b0 _ hone ?_
    rw [run_cons, hd0, run_cons, hd1, run_reject]
    decide

theorem scanSpec_all (n : Nat) : ∀ l : List Nat, l.length ≤ n → (∀ b ∈ l, b < 256) →
    ScanSpec l := by
  induction n using Nat.strong_induction_on with
  | _ n ih =>
    intro l hl hb
    rcases l with _ | ⟨b0, rest⟩
    · exact scanSpec_nil
    have hb0 : b0 < 256 := hb b0 (by simp)
    simp only [List.length_cons] at hl
    by_cases h1 : b0 ≤ 0x7F
    · refine scanSpec_step b0 rest rest b0 (specDecodeOne_ascii b0 rest h1) ?_ ?_ ?_
        (ih rest.length (by omega) rest le_rfl (fun b hbm => hb b (by simp [hbm])))
      · simp only [run, dec0_ascii 0 b0 h1]
      · simp only [accepted, dec0_ascii 0 b0 h1, ACCEPT, if_true]
      · simp only [visitsReject, dec0_ascii 0 b0 h1, REJECT]
        rfl
    by_cases h2 : 0xC2 ≤ b0 ∧ b0 ≤ 0xDF
    · rcases rest with _ | ⟨b1, r⟩
      · refine scanSpec_fail b0 [] (specDecodeOne_lead2_short b0 h2.1 h2.2) ?_
        simp only [run, dec0_lead2 0 b0 h2.1 h2.2]
        decide
      have hb1 : b1 < 256 := hb b1 (by simp)
      have hd0 := dec0_lead2 0 b0 h2.1 h2.2
      have hd1 := dec_24 (b0 % 32) b1 hb1 (by omega)
      simp only [List.length_cons] at hl
      by_cases hc1 : 0x80 ≤ b1 ∧ b1 ≤ 0xBF
      · rw [if_pos hc1] at hd1
        refine scanSpec_step b0 (b1 :: r) r (b0 % 32 * 64 + b1 % 64) ?_ ?_ ?_ ?_
          (ih r.length (by omega) r le_rfl (fun b hbm => hb b (by simp [hbm])))
        · rw [specDecodeOne_lead2 b0 b1 r h2.1 h2.2, if_pos (by simp [isCont, hc1])]
        · simp only [run, hd0, hd1]
        · simp only [accepted, hd0, hd1, ACCEPT, if_true]
          rfl
        · simp only [visitsReject, hd0, hd1, REJECT]
          rfl
      · rw [if_neg hc1] at hd1
        refine scanSpec_fail b0 (b1 :: r) ?_ ?_
        · rw [specDecodeOne_lead2 b0 b1 r h2.1 h2.2, if_neg (by simp [isCont]; omega)]
        · simp only [run, hd0, hd1]
          rw [run_reject]
          decide
    have hbr : ∀ b ∈ rest, b < 256 := fun b hbm => hb b (by simp [hbm])
    have ihr : ∀ r : List Nat, r.length < rest.length → (∀ b ∈ r, b < 256) → ScanSpec r :=
      fun r hr hbr => ih r.length (by omega) r le_rfl hbr
    by_cases h3 : 0xE0 ≤ b0 ∧ b0 ≤ 0xEF
    · have hd0 := dec0_lead3 0 b0 h3.1 h3.2
      by_cases he0 : b0 = 0xE0
      · rw [if_pos he0] at hd0
        exact scanSpec_lead3 b0 48 0xA0 0xBF rest hbr h3 hd0 (by decide) (by decide)
          (fun b1 hb1 => dec_48 _ b1 hb1 (by omega))
          (fun b1 b2 _ _ => by subst he0; omega) ihr
      by_cases hed : b0 = 0xED
      · rw [if_neg he0, if_pos hed] at hd0
        exact scanSpec_lead3 b0 60 0x80 0x9F rest hbr h3 hd0 (by decide) (by decide)
          (fun b1 hb1 => dec_60 _ b1 hb1 (by omega))
          (fun b1 b2 _ _ => by subst hed; omega) ihr
      · rw [if_neg he0, if_neg hed] at hd0
        exact scanSpec_lead3 b0 36 0x80 0xBF rest hbr h3 hd0 (by decide) (by decide)
          (fun b1 hb1 => dec_36 _ b1 hb1 (by omega))
          (fun b1 b2 _ _ => by omega) ihr
    by_cases h4 : 0xF0 ≤ b0 ∧ b0 ≤ 0xF4
    · have hd0 := dec0_lead4 0 b0 h4.1 h4.2
      by_cases hf0 : b0 = 0xF0
      · rw [if_pos hf0] at hd0
        exact scanSpec_lead4 b0 72 0x90 0xBF rest hbr h4 hd0 (by decide) (by decide)
          (fun b1 hb1 => dec_72 _ b1 hb1 (by omega))
          (fun b1 b2 b3 _ _ _ => by subst hf0; omega) ihr
      by_cases hf4 : b0 = 0xF4
      · rw [if_neg hf0, if_pos hf4] at hd0
        exact scanSpec_lead4 b0 96 0x80 0x8F rest hbr h4 hd0 (by decide) (by decide)
          (fun b1 hb1 => dec_96 _ b1 hb1 (by omega))
          (fun b1 b2 b3 _ _ _ => by subst hf4; omega) ihr
      · rw [if_neg hf0, if_neg hf4] at hd0
        exact scanSpec_lead4 b0 84 0x80 0xBF rest hbr h4 hd0 (by decide) (by decide)
          (fun b1 hb1 => dec_84 _ b1 hb1 (by omega))
          (fun b1 b2 b3 _ _ _ => by omega) ihr
    refine scanSpec_fail b0 rest (specDecodeOne_bad b0 rest h1 h2 h3 h4) ?_
    rw [run_cons, dec0_bad 0 b0 hb0 h1 h2 h3 h4, run_reject]
    decide


/-! ## The scanning loops in terms of the scan -/

theorem content_cons_zero (rest : List Nat) : content (0 :: rest) = [] := by
  simp [content]

theorem content_cons_ne (b : Nat) (rest : List Nat) (h : b ≠ 0) :
    content (b :: rest) = b :: content rest := by
  simp [content, List.takeWhile_cons, h]

theorem content_append_zero (l tail : List Nat) (h : ∀ b ∈ l, b ≠ 0) :
    content (l ++ 0 :: tail) = l := by
  induction l with
  | nil => exact content_cons_zero tail
  | cons b l ih =>
    rw [List.cons_append, content_cons_ne b _ (h b (by simp)),
      ih (fun x hx => h x (by simp [hx]))]

theorem content_ne_zero (s : List Nat) : ∀ b ∈ content s, b ≠ 0 := by
  intro b hb
  have := List.mem_takeWhile_imp hb
  simpa using this

theorem content_sublist (s : List Nat) : ∀ b ∈ content s, b ∈ s :=
  fun _ hb => (List.takeWhile_sublist _).subset hb

theorem utf8_check_loop_eq (s : List Nat) (hz : 0 ∈ s) (st cp : Nat) :
    utf8_check_loop s st cp = some (run st cp (content s)).1 := by
  induction s generalizing st cp with
  | nil => simp at hz
  | cons b rest ih =>
    by_cases hb : b = 0
    · subst hb
      rw [content_cons_zero]
      simp [utf8_check_loop, run]
    · have hz2 : 0 ∈ rest := by
        rcases List.mem_cons.1 hz with h | h
        · exact absurd h.symm hb
        · exact h
      rw [content_cons_ne b rest hb, run_cons]
      simp only [utf8_check_loop, ne_eq, hb, not_false_eq_true, if_true]
      exact ih hz2 _ _

theorem utf8_count_loop_eq (s : List Nat) (hz : 0 ∈ s) (st cp : Nat) (cnt : Int) :
    utf8_count_loop s st cp cnt = some (cnt + ((accepted st cp (content s)).length : Int)) := by
  induction s generalizing st cp cnt with
  | nil => simp at hz
  | cons b rest ih =>
    by_cases hb : b = 0
    · subst hb
      rw [content_cons_zero]
      simp [utf8_count_loop, accepted]
    · have hz2 : 0 ∈ rest := by
        rcases List.mem_cons.1 hz with h | h
        · exact absurd h.symm hb
        · exact h
      rw [content_cons_ne b rest hb, accepted_cons]
      simp only [utf8_count_loop, ne_eq, hb, not_false_eq_true, if_true]
      rw [ih hz2]
      simp only [ACCEPT]
      split_ifs
      · simp only [List.length_cons, Nat.cast_add, Nat.cast_one]
        congr 1
        ring
      · simp

theorem utf8_decode_loop_eq (s : List Nat) (hz : 0 ∈ s) (st cp : Nat) (calls : List Nat) :
    utf8_decode_loop s st cp calls = some (calls ++ accepted st cp (content s)) := by
  induction s generalizing st cp calls with
  | nil => simp at hz
  | cons b rest ih =>
    by_cases hb : b = 0
    · subst hb
      rw [content_cons_zero]
      simp [utf8_decode_loop, accepted]
    · have hz2 : 0 ∈ rest := by
        rcases List.mem_cons.1 hz with h | h
        · exact absurd h.symm hb
        · exact h
      rw [content_cons_ne b rest hb, accepted_cons]
      simp only [utf8_decode_loop, ne_eq, hb, not_false_eq_true, if_true]
      simp only [ACCEPT]
      split_ifs
      · rw [ih hz2]; simp
      · rw [ih hz2]

theorem visitsReject_run (st cp : Nat) (l : List Nat) (h : visitsReject st cp l = true) :
    (run st cp l).1 = 12 := by
  induction l generalizing st cp with
  | nil => simp [visitsReject] at h
  | cons b l ih =>
    rw [visitsReject_cons, Bool.or_eq_true] at h
    rw [run_cons]
    rcases h with h | h
    · rw [beq_iff_eq] at h
      rw [h, run_reject]
    · exact ih _ _ h

theorem scanSpec (l : List Nat) (hb : ∀ b ∈ l, b < 256) : ScanSpec l :=
  scanSpec_all l.length l le_rfl hb

/-- Claim C1: for every zero-terminated byte buffer `utf8_check` returns 0 if and only if
the bytes before the first zero byte are well-formed standard UTF-8, and returns 1
otherwise; equivalently the final automaton state is `ACCEPT` exactly for well-formed
input. -/
theorem utf8_check_wellFormed (s : List Nat) (hb : ∀ b ∈ s, b < 256) (hz : 0 ∈ s) :
    (utf8_check (some s) = some 0 ↔ wellFormed (content s) = true) ∧
    (utf8_check (some s) = some 1 ↔ wellFormed (content s) = false) ∧
    ((run ACCEPT 0 (content s)).1 = ACCEPT ↔ wellFormed (content s) = true) := by
  have hspec := scanSpec (content s) (fun b h => hb b (content_sublist s b h))
  have hchk : utf8_check (some s) =
      some (if (run ACCEPT 0 (content s)).1 = ACCEPT then 0 else 1) := by
    simp only [utf8_check, utf8_check_loop_eq s hz]
  rw [hchk]
  simp only [ACCEPT, wellFormed]
  cases hs : specDecode (content s) with
  | none =>
    have := hspec.2 hs
    simp [this]
  | some cs =>
    have := (hspec.1 cs hs).1
    simp [this]

theorem utf8_check_wellFormed_witness :
    (∀ b ∈ [0xC3, 0xA4, 0], b < 256) ∧ 0 ∈ [0xC3, 0xA4, 0] ∧
    ((utf8_check (some [0xC3, 0xA4, 0]) = some 0 ↔ wellFormed (content [0xC3, 0xA4, 0]) = true) ∧
    (utf8_check (some [0xC3, 0xA4, 0]) = some 1 ↔ wellFormed (content [0xC3, 0xA4, 0]) = false) ∧
    ((run ACCEPT 0 (content [0xC3, 0xA4, 0])).1 = ACCEPT ↔
      wellFormed (content [0xC3, 0xA4, 0]) = true)) :=
  ⟨by decide, by decide, utf8_check_wellFormed [0xC3, 0xA4, 0] (by decide) (by decide)⟩

/-- Claim C2, as stated, fails: from `REJECT` the decode step does not move to `ACCEPT` on
the ASCII byte `41`, and the buffer `E0 41 42 00`, whose scan visits `REJECT` before two
ASCII bytes, is not reported valid. -/
theorem reject_stays_on_ascii :
    (decode REJECT 0 0x41).1 ≠ ACCEPT ∧
    visitsReject ACCEPT 0 (content [0xE0, 0x41, 0x42, 0]) = true ∧
    utf8_check (some [0xE0, 0x41, 0x42, 0]) ≠ some 0 := by
  decide

/-- Claim C2, amended: `REJECT` is absorbing.  From `REJECT` the decode step stays in
`REJECT` on every byte, and for every zero-terminated buffer whose scan visits `REJECT`
`utf8_check` returns 1. -/
theorem reject_absorbing (s : List Nat) (hz : 0 ∈ s)
    (hv : visitsReject ACCEPT 0 (content s) = true) :
    (∀ cp b, (decode REJECT cp b).1 = REJECT) ∧ utf8_check (some s) = some 1 := by
  refine ⟨fun cp b => decode_reject cp b, ?_⟩
  have h := visitsReject_run ACCEPT 0 (content s) hv
  simp only [utf8_check, utf8_check_loop_eq s hz, h]
  rfl

theorem reject_absorbing_witness :
    0 ∈ [0xE0, 0x41, 0x42, 0] ∧ visitsReject ACCEPT 0 (content [0xE0, 0x41, 0x42, 0]) = true ∧
    ((∀ cp b, (decode REJECT cp b).1 = REJECT) ∧
      utf8_check (some [0xE0, 0x41, 0x42, 0]) = some 1) :=
  ⟨by decide, by decide, reject_absorbing [0xE0, 0x41, 0x42, 0] (by decide) (by decide)⟩

theorem specDecode_of_ascii (l : List Nat) (h : ∀ b ∈ l, b ≤ 0x7F) : specDecode l = some l := by
  induction l with
  | nil => rfl
  | cons b l ih =>
    rw [specDecode_cons, specDecodeOne_ascii b l (h b (by simp))]
    simp only
    rw [ih (fun x hx => h x (by simp [hx]))]
    rfl

/-- Claim C4: for every zero-terminated buffer `utf8_count` returns the number of times
the scan enters `ACCEPT`; for a well-formed buffer that encodes the codepoints `cs` this is
the number of codepoints; for an ASCII-only buffer it is the byte length; for `ABCDE` it
is 5. -/
theorem utf8_count_wellFormed (s : List Nat) (hb : ∀ b ∈ s, b < 256) (hz : 0 ∈ s) :
    utf8_count (some s) = some ((accepted ACCEPT 0 (content s)).length : Int) ∧
    (∀ cs, specDecode (content s) = some cs → utf8_count (some s) = some (cs.length : Int)) ∧
    ((∀ b ∈ content s, b ≤ 0x7F) → utf8_count (some s) = some ((content s).length : Int)) ∧
    utf8_count (some [0x41, 0x42, 0x43, 0x44, 0x45, 0]) = some 5 := by
  have hspec := scanSpec (content s) (fun b h => hb b (content_sublist s b h))
  have hcnt : utf8_count (some s) = some ((accepted ACCEPT 0 (content s)).length : Int) := by
    simp only [utf8_count, utf8_count_loop_eq s hz, zero_add]
  have hwf : ∀ cs, specDecode (content s) = some cs →
      utf8_count (some s) = some (cs.length : Int) := by
    intro cs hcs
    rw [hcnt]
    have := (hspec.1 cs hcs).2.1
    simp only [ACCEPT]
    rw [this]
  exact ⟨hcnt, hwf, fun hascii => hwf _ (specDecode_of_ascii _ hascii), by decide⟩

theorem utf8_count_wellFormed_witness :
    (∀ b ∈ [0x41, 0xC3, 0xA4, 0], b < 256) ∧ 0 ∈ [0x41, 0xC3, 0xA4, 0] ∧
    specDecode (content [0x41, 0xC3, 0xA4, 0]) = some [0x41, 0xE4] ∧
    utf8_count (some [0x41, 0xC3, 0xA4, 0]) = some 2 :=
  ⟨by decide, by decide, by decide,
    (utf8_count_wellFormed [0x41, 0xC3, 0xA4, 0] (by decide) (by decide)).2.1 [0x41, 0xE4]
      (by decide)⟩


theorem or_80 : ∀ x < 64, x ||| 0x80 = x + 0x80 := by decide
theorem or_C0 : ∀ x < 32, x ||| 0xC0 = x + 0xC0 := by decide
theorem or_E0 : ∀ x < 16, x ||| 0xE0 = x + 0xE0 := by decide
theorem or_F0 : ∀ x < 8, x ||| 0xF0 = x + 0xF0 := by decide

theorem encode_eq1 (c : Nat) (h : c < 0x80) : encode c = [c] := by
  simp only [encode, encoded_type, h, if_true, encode1]
  rw [Nat.mod_eq_of_lt (by omega)]

theorem encode_eq2 (c : Nat) (h1 : 0x80 ≤ c) (h2 : c < 0x800) :
    encode c = [c / 64 + 0xC0, c % 64 + 0x80] := by
  simp only [encode, encoded_type, show ¬ c < 0x80 by omega, h2, if_true, if_false, encode2]
  rw [Nat.shiftRight_eq_div_pow, and_63, or_C0 _ (by omega), or_80 _ (by omega)]
  congr 1
  · omega
  · congr 1
    omega

theorem encode_eq3 (c : Nat) (h1 : 0x800 ≤ c) (h2 : c < 0x10000) :
    encode c = [c / 4096 + 0xE0, c / 64 % 64 + 0x80, c % 64 + 0x80] := by
  simp only [encode, encoded_type, show ¬ c < 0x80 by omega, show ¬ c < 0x800 by omega, h2,
    if_true, if_false, encode3]
  rw [Nat.shiftRight_eq_div_pow, Nat.shiftRight_eq_div_pow, and_63, and_63,
    or_E0 _ (by omega), or_80 _ (by omega), or_80 _ (by omega)]
  congr 1
  · omega
  · congr 1
    · omega
    · congr 1
      omega

theorem encode_eq4 (c : Nat) (h1 : 0x10000 ≤ c) (h2 : c ≤ 0x10FFFF) :
    encode c = [c / 262144 + 0xF0, c / 4096 % 64 + 0x80, c / 64 % 64 + 0x80, c % 64 + 0x80] := by
  simp only [encode, encoded_type, show ¬ c < 0x80 by omega, show ¬ c < 0x800 by omega,
    show ¬ c < 0x10000 by omega, if_false, encode4]
  rw [Nat.shiftRight_eq_div_pow, Nat.shiftRight_eq_div_pow, Nat.shiftRight_eq_div_pow,
    and_63, and_63, and_63,
    or_F0 _ (by omega), or_80 _ (by omega), or_80 _ (by omega), or_80 _ (by omega)]
  congr 1
  · omega
  · congr 1
    · omega
    · congr 1
      · omega
      · congr 1
        omega


theorem encode_specOne (c : Nat) (h : isScalar c) (rest : List Nat) :
    specDecodeOne (encode c ++ rest) = some (c, rest) := by
  obtain ⟨h1, h2, h3⟩ := h
  by_cases c1 : c < 0x80
  · rw [encode_eq1 c c1]
    exact specDecodeOne_ascii c rest (by omega)
  by_cases c2 : c < 0x800
  · rw [encode_eq2 c (by omega) c2]
    simp only [List.cons_append, List.nil_append]
    rw [specDecodeOne_lead2 _ _ _ (by omega) (by omega), if_pos (by simp [isCont]; omega)]
    congr 2
    omega
  by_cases c3 : c < 0x10000
  · rw [encode_eq3 c (by omega) c3]
    simp only [List.cons_append, List.nil_append]
    have hv : (c / 4096 + 0xE0) % 16 * 4096 + (c / 64 % 64 + 0x80) % 64 * 64 +
        (c % 64 + 0x80) % 64 = c := by omega
    rw [specDecodeOne_lead3 _ _ _ _ (by omega) (by omega), hv,
      if_pos (by simp [isCont]; omega)]
  · rw [encode_eq4 c (by omega) h2]
    simp only [List.cons_append, List.nil_append]
    have hv : (c / 262144 + 0xF0) % 8 * 262144 + (c / 4096 % 64 + 0x80) % 64 * 4096 +
        (c / 64 % 64 + 0x80) % 64 * 64 + (c % 64 + 0x80) % 64 = c := by omega
    rw [specDecodeOne_lead4 _ _ _ _ _ (by omega) (by omega), hv,
      if_pos (by simp [isCont]; omega)]

theorem encode_bytes (c : Nat) (h : isScalar c) : ∀ b ∈ encode c, b ≠ 0 ∧ b < 256 := by
  obtain ⟨h1, h2, h3⟩ := h
  intro b hb
  by_cases c1 : c < 0x80
  · rw [encode_eq1 c c1] at hb
    simp only [List.mem_singleton] at hb
    omega
  by_cases c2 : c < 0x800
  · rw [encode_eq2 c (by omega) c2] at hb
    simp only [List.mem_cons, List.mem_singleton, List.not_mem_nil, or_false] at hb
    omega
  by_cases c3 : c < 0x10000
  · rw [encode_eq3 c (by omega) c3] at hb
    simp only [List.mem_cons, List.mem_singleton, List.not_mem_nil, or_false] at hb
    omega
  · rw [encode_eq4 c (by omega) h2] at hb
    simp only [List.mem_cons, List.mem_singleton, List.not_mem_nil, or_false] at hb
    omega

theorem encode_ne_nil (c : Nat) : encode c ≠ [] := by
  simp only [encode, encoded_type]
  split_ifs <;> simp [encode1, encode2, encode3, encode4]

theorem specDecode_append_one (pre rest : List Nat) (c : Nat) (hpre : pre ≠ [])
    (h : specDecodeOne (pre ++ rest) = some (c, rest)) :
    specDecode (pre ++ rest) = (specDecode rest).map (fun cs => c :: cs) := by
  rcases pre with _ | ⟨b0, p⟩
  · exact absurd rfl hpre
  · rw [List.cons_append] at h ⊢
    rw [specDecode_cons, h]

theorem specDecode_encode (cs : List Nat) (h : ∀ c ∈ cs, isScalar c) :
    specDecode (cs.flatMap encode) = some cs := by
  induction cs with
  | nil => rfl
  | cons c cs ih =>
    rw [List.flatMap_cons, specDecode_append_one _ _ c (encode_ne_nil c)
      (encode_specOne c (h c (by simp)) _), ih (fun x hx => h x (by simp [hx]))]
    rfl

theorem flatMap_encode_bytes (cs : List Nat) (h : ∀ c ∈ cs, isScalar c) :
    ∀ b ∈ cs.flatMap encode, b ≠ 0 ∧ b < 256 := by
  intro b hb
  rw [List.mem_flatMap] at hb
  obtain ⟨c, hc, hbc⟩ := hb
  exact encode_bytes c (h c hc) b hbc

/-- Claim C3: decode undoes encode.  For every list `cs` of Unicode scalar values other
than zero, `utf8_decode` on the concatenation of their encodings followed by a zero byte
returns 0 and calls the listener once per element with the values of `cs` in order; each
encoded sequence drives the scan from `ACCEPT` back to `ACCEPT` and reports its
codepoint. -/
theorem utf8_decode_encode (cs : List Nat) (h : ∀ c ∈ cs, isScalar c) :
    utf8_decode (some (cs.flatMap encode ++ [0])) = some (0, cs) ∧
    ∀ c ∈ cs, (run ACCEPT 0 (encode c)).1 = ACCEPT ∧ accepted ACCEPT 0 (encode c) = [c] := by
  constructor
  · have hbytes := flatMap_encode_bytes cs h
    have hcontent : content (cs.flatMap encode ++ [0]) = cs.flatMap encode :=
      content_append_zero _ [] (fun b hb => (hbytes b hb).1)
    have hspec := scanSpec (cs.flatMap encode) (fun b hb => (hbytes b hb).2)
    have hacc := (hspec.1 cs (specDecode_encode cs h)).2.1
    simp only [utf8_decode, utf8_decode_loop_eq _ (show (0 : Nat) ∈ cs.flatMap encode ++ [0] by simp),
      hcontent, List.nil_append, ACCEPT, hacc]
  · intro c hc
    have hsc := h c hc
    have hspec := scanSpec (encode c) (fun b hb => (encode_bytes c hsc b hb).2)
    have hdec : specDecode (encode c) = some [c] := by
      have := specDecode_encode [c] (fun x hx => by
        rw [List.mem_singleton] at hx
        exact hx ▸ hsc)
      simpa using this
    exact ⟨(hspec.1 [c] hdec).1, (hspec.1 [c] hdec).2.1⟩

theorem utf8_decode_encode_witness :
    (∀ c ∈ [0x41, 0xE4, 0x20AC, 0x1F600], isScalar c) ∧
    utf8_decode (some ([0x41, 0xE4, 0x20AC, 0x1F600].flatMap encode ++ [0])) =
      some (0, [0x41, 0xE4, 0x20AC, 0x1F600]) :=
  ⟨by simp [isScalar],
    (utf8_decode_encode [0x41, 0xE4, 0x20AC, 0x1F600] (by simp [isScalar])).1⟩


/-! ## Measuring and terminating -/

/-- Claim C5 at the failing input `ABCDE`: the content is well-formed and 5 bytes long,
and `utf8_len` returns 4, the index of its last byte. -/
theorem utf8_len_ABCDE :
    utf8_len (some [0x41, 0x42, 0x43, 0x44, 0x45, 0]) = some 4 ∧
    (content [0x41, 0x42, 0x43, 0x44, 0x45, 0]).length = 5 ∧
    wellFormed (content [0x41, 0x42, 0x43, 0x44, 0x45, 0]) = true := by
  decide

/-- Claim C6 at the failing input `FF 41 00`: the first byte drives the scan into
`REJECT`, so `ACCEPT` is never reached; `utf8_term` returns 0 and leaves the content `FF`,
not the empty content. -/
theorem utf8_term_invalid_first :
    utf8_term (some [0xFF, 0x41, 0]) = some (0, [0xFF, 0, 0]) ∧
    content [0xFF, 0, 0] = [0xFF] ∧
    (decode ACCEPT 0 0xFF).1 = REJECT := by
  decide

/-- Claim C9 at the failing input `E0 41 42 00`: `utf8_stripinval` returns 0 and leaves
the content `42`; the byte `41` is deleted together with the lead byte `E0`. -/
theorem utf8_stripinval_lead_ascii :
    utf8_stripinval (some [0xE0, 0x41, 0x42, 0]) = some (0, [0x42, 0, 0x42, 0]) ∧
    content [0x42, 0, 0x42, 0] = [0x42] := by
  decide

theorem utf8_nlen_loop_total (rest : List Nat) : ∀ (len i st cp : Nat) (bc : Int),
    len ≤ i + rest.length → 0 ≤ bc →
    ∃ n : Nat, utf8_nlen_loop rest len i st cp bc = some (n : Int) := by
  induction rest with
  | nil =>
    intro len i st cp bc hlen hbc
    simp only [List.length_nil, Nat.add_zero] at hlen
    refine ⟨bc.toNat, ?_⟩
    simp only [utf8_nlen_loop, show ¬ i < len by omega, if_false, Int.toNat_of_nonneg hbc]
  | cons b rest ih =>
    intro len i st cp bc hlen hbc
    simp only [List.length_cons] at hlen
    simp only [utf8_nlen_loop]
    by_cases h : i < len ∧ b ≠ 0
    · rw [if_pos h]
      refine ih len (i + 1) _ _ _ (by omega) ?_
      by_cases ha : (decode st cp b).1 = ACCEPT
      · rw [if_pos ha]; omega
      · rw [if_neg ha]; exact hbc
    · rw [if_neg h]
      exact ⟨bc.toNat, by rw [Int.toNat_of_nonneg hbc]⟩

/-- Claim C7: for every buffer with at least `len` bytes, `utf8_nterm` returns `-ENOMEM`
and leaves the buffer as it is exactly when `utf8_nlen + 1` is at or beyond `len`;
otherwise it returns 0 and the only byte written is a zero at index `utf8_nlen + 1`. -/
theorem utf8_nterm_capacity (s : List Nat) (len : Nat) (hcap : len ≤ s.length) :
    ∃ n : Nat, utf8_nlen (some s) len = some (n : Int) ∧
      (utf8_nterm (some s) len = some (-ENOMEM, s) ↔ len ≤ n + 1) ∧
      (¬ len ≤ n + 1 → utf8_nterm (some s) len = some (0, s.set (n + 1) 0)) := by
  obtain ⟨n, hn⟩ := utf8_nlen_loop_total s len 0 ACCEPT 0 0 (by omega) le_rfl
  have hn2 : utf8_nlen (some s) len = some (n : Int) := hn
  refine ⟨n, hn2, ?_⟩
  by_cases hle : len ≤ n + 1
  · have : utf8_nterm (some s) len = some (-ENOMEM, s) := by
      simp only [utf8_nterm, hn2, show ¬ ((n : Int) < 0) by omega, if_false,
        show ((n : Int) + 1 ≥ (len : Int)) by omega, if_true, Option.getD_some]
    exact ⟨⟨fun _ => hle, fun _ => this⟩, fun h => absurd hle h⟩
  · have : utf8_nterm (some s) len = some (0, s.set (n + 1) 0) := by
      have htn : ((n : Int) + 1).toNat = n + 1 := by omega
      simp only [utf8_nterm, hn2, show ¬ ((n : Int) < 0) by omega, if_false,
        show ¬ ((n : Int) + 1 ≥ (len : Int)) by omega, Option.getD_some, store, htn,
        show n + 1 < s.length by omega, if_true]
    refine ⟨⟨fun h => ?_, fun h => absurd h hle⟩, fun _ => this⟩
    rw [this] at h
    simp [ENOMEM] at h

theorem utf8_nterm_capacity_witness :
    2 ≤ [0x41, 0x42, 0x43, 0].length ∧
    ∃ n : Nat, utf8_nlen (some [0x41, 0x42, 0x43, 0]) 2 = some (n : Int) ∧
      (utf8_nterm (some [0x41, 0x42, 0x43, 0]) 2 = some (-ENOMEM, [0x41, 0x42, 0x43, 0]) ↔
        2 ≤ n + 1) ∧
      (¬ 2 ≤ n + 1 →
        utf8_nterm (some [0x41, 0x42, 0x43, 0]) 2 =
          some (0, [0x41, 0x42, 0x43, 0].set (n + 1) 0)) :=
  ⟨by decide, utf8_nterm_capacity [0x41, 0x42, 0x43, 0] 2 (by decide)⟩

theorem utf8_nlen_loop_eq (l : List Nat) : ∀ (tail : List Nat) (len i st cp : Nat) (bc : Int),
    (∀ b ∈ l, b ≠ 0) → i + l.length ≤ len →
    (len = i + l.length ∨ ∃ t, tail = 0 :: t) →
    utf8_nlen_loop (l ++ tail) len i st cp bc = some (lastAccept st cp l i bc) := by
  induction l with
  | nil =>
    intro tail len i st cp bc _ hlen hend
    simp only [List.length_nil, Nat.add_zero] at hlen hend
    simp only [List.nil_append, lastAccept]
    rcases hend with h | ⟨t, rfl⟩
    · rcases tail with _ | ⟨b, t⟩
      · simp only [utf8_nlen_loop, show ¬ i < len by omega, if_false]
      · simp only [utf8_nlen_loop, show ¬ i < len by omega, false_and, if_false]
    · simp only [utf8_nlen_loop, ne_eq, not_true_eq_false, and_false, if_false]
  | cons b l ih =>
    intro tail len i st cp bc hnz hlen hend
    simp only [List.length_cons] at hlen hend
    have hb : b ≠ 0 := hnz b (by simp)
    simp only [List.cons_append, utf8_nlen_loop, lastAccept]
    rw [if_pos ⟨by omega, hb⟩]
    exact ih tail len (i + 1) _ _ _ (fun x hx => hnz x (by simp [hx])) (by omega)
      (by rcases hend with h | h
          · left; omega
          · right; exact h)

theorem lastAccept_of_run (l : List Nat) : ∀ (st cp i : Nat) (bc : Int),
    l ≠ [] → (run st cp l).1 = 0 → lastAccept st cp l i bc = ((i + l.length - 1 : Nat) : Int) := by
  induction l with
  | nil => intro st cp i bc h; exact absurd rfl h
  | cons b l ih =>
    intro st cp i bc _ hrun
    rw [run_cons] at hrun
    rcases l with _ | ⟨b2, l2⟩
    · simp only [run] at hrun
      simp only [lastAccept, hrun, ACCEPT, if_true, List.length_singleton]
      congr 1
    · rw [lastAccept, ih _ _ (i + 1) _ (by simp) hrun]
      simp only [List.length_cons]
      congr 1
      omega

/-- Claim C8, as stated, fails: on the buffer `41 00` (one byte of well-formed content
and its terminator) with declared bound 2, `utf8_nterm` returns 0, not `-ENOMEM`. -/
theorem utf8_nterm_exact_fit :
    wellFormed [0x41] = true ∧
    utf8_nterm (some [0x41, 0]) 2 = some (0, [0x41, 0]) ∧
    utf8_nterm (some [0x41, 0]) 2 ≠ some (-ENOMEM, [0x41, 0]) := by
  decide

/-- Claim C8, amended: for every buffer holding `n >= 1` bytes of well-formed content `c`
followed by its zero terminator, `utf8_nterm` with declared bound `n + 1` returns 0 and
leaves the buffer unchanged; with declared bound `n` it fails with `-ENOMEM` and leaves the
buffer unchanged. -/
theorem utf8_nterm_wellFormed (c tail : List Nat) (hne : c ≠ []) (hb : ∀ b ∈ c, b < 256)
    (hnz : ∀ b ∈ c, b ≠ 0) (hwf : wellFormed c = true) :
    utf8_nterm (some (c ++ 0 :: tail)) (c.length + 1) = some (0, c ++ 0 :: tail) ∧
    utf8_nterm (some (c ++ 0 :: tail)) c.length = some (-ENOMEM, c ++ 0 :: tail) := by
  have hspec := scanSpec c hb
  have hrun : (run 0 0 c).1 = 0 := by
    simp only [wellFormed] at hwf
    cases hs : specDecode c with
    | none => rw [hs] at hwf; simp at hwf
    | some cs => exact (hspec.1 cs hs).1
  have hpos : 0 < c.length := List.length_pos.2 hne
  have hla : lastAccept 0 0 c 0 0 = ((c.length - 1 : Nat) : Int) := by
    rw [lastAccept_of_run c 0 0 0 0 hne hrun]
    congr 1
    omega
  have h1 : utf8_nlen (some (c ++ 0 :: tail)) (c.length + 1) = some ((c.length - 1 : Nat) : Int) := by
    simp only [utf8_nlen, ACCEPT]
    rw [utf8_nlen_loop_eq c (0 :: tail) (c.length + 1) 0 0 0 0 hnz (by omega) (Or.inr ⟨tail, rfl⟩),
      hla]
  have h2 : utf8_nlen (some (c ++ 0 :: tail)) c.length = some ((c.length - 1 : Nat) : Int) := by
    simp only [utf8_nlen, ACCEPT]
    rw [utf8_nlen_loop_eq c (0 :: tail) c.length 0 0 0 0 hnz (by omega) (Or.inl (by omega)), hla]
  have hcast : ((c.length - 1 : Nat) : Int) + 1 = (c.length : Int) := by omega
  constructor
  · have hset : (c ++ 0 :: tail).set c.length 0 = c ++ 0 :: tail := by
      rw [List.set_append_right _ _ le_rfl]
      simp
    simp only [utf8_nterm, h1, hcast, Option.getD_some, store, Int.toNat_ofNat,
      show ¬ (((c.length - 1 : Nat) : Int) < 0) by omega, if_false,
      show ¬ ((c.length : Int) ≥ ((c.length + 1 : Nat) : Int)) by omega,
      show c.length < (c ++ 0 :: tail).length by simp, if_true, hset]
  · simp only [utf8_nterm, h2, hcast, Option.getD_some,
      show ¬ (((c.length - 1 : Nat) : Int) < 0) by omega, if_false,
      show ((c.length : Int) ≥ ((c.length : Nat) : Int)) by omega, if_true]

theorem utf8_nterm_wellFormed_witness :
    [0x41, 0xC3, 0xA4] ≠ [] ∧ (∀ b ∈ [0x41, 0xC3, 0xA4], b < 256) ∧
    (∀ b ∈ [0x41, 0xC3, 0xA4], b ≠ 0) ∧ wellFormed [0x41, 0xC3, 0xA4] = true ∧
    (utf8_nterm (some ([0x41, 0xC3, 0xA4] ++ 0 :: [0x7A])) ([0x41, 0xC3, 0xA4].length + 1) =
      some (0, [0x41, 0xC3, 0xA4] ++ 0 :: [0x7A]) ∧
    utf8_nterm (some ([0x41, 0xC3, 0xA4] ++ 0 :: [0x7A])) [0x41, 0xC3, 0xA4].length =
      some (-ENOMEM, [0x41, 0xC3, 0xA4] ++ 0 :: [0x7A])) :=
  ⟨by decide, by decide, by decide, by decide,
    utf8_nterm_wellFormed [0x41, 0xC3, 0xA4] [0x7A] (by decide) (by decide) (by decide)
      (by decide)⟩


/-! ## Stripping invalid runs -/

theorem run_fst_irrel (l : List Nat) : ∀ (st cp cp2 : Nat), (run st cp l).1 = (run st cp2 l).1 := by
  induction l with
  | nil => intro st cp cp2; rfl
  | cons b l ih =>
    intro st cp cp2
    rw [run_cons, run_cons, decode_fst st cp b, decode_fst st cp2 b]
    exact ih _ _ _

theorem visitsReject_irrel (l : List Nat) : ∀ (st cp cp2 : Nat),
    visitsReject st cp l = visitsReject st cp2 l := by
  induction l with
  | nil => intro st cp cp2; rfl
  | cons b l ih =>
    intro st cp cp2
    rw [visitsReject_cons, visitsReject_cons, decode_fst st cp b, decode_fst st cp2 b]
    rw [ih _ (decode st cp b).2 (decode st cp2 b).2]

theorem run_append (l1 l2 : List Nat) : ∀ (st cp : Nat),
    run st cp (l1 ++ l2) = run (run st cp l1).1 (run st cp l1).2 l2 := by
  induction l1 with
  | nil => intro st cp; rfl
  | cons b l ih => intro st cp; rw [List.cons_append, run_cons, run_cons, ih]

theorem visitsReject_append (l1 l2 : List Nat) : ∀ (st cp : Nat),
    visitsReject st cp (l1 ++ l2) =
      (visitsReject st cp l1 || visitsReject (run st cp l1).1 (run st cp l1).2 l2) := by
  induction l1 with
  | nil => intro st cp; simp [visitsReject, run]
  | cons b l ih =>
    intro st cp
    rw [List.cons_append, visitsReject_cons, visitsReject_cons, run_cons, ih, Bool.or_assoc]

theorem steady_nil : Steady 0 [] := ⟨fun _ h => by simp at h, rfl, rfl⟩

theorem steady_snoc (st cp b : Nat) (P : List Nat) (h : Steady st P) (hb : b ≠ 0)
    (hr : (decode st cp b).1 ≠ 12) : Steady (decode st cp b).1 (P ++ [b]) := by
  obtain ⟨h1, h2, h3⟩ := h
  refine ⟨fun x hx => ?_, ?_, ?_⟩
  · rcases List.mem_append.1 hx with hx | hx
    · exact h1 x hx
    · rw [List.mem_singleton] at hx; rw [hx]; exact hb
  · have hr0 : (decode st (run 0 0 P).2 b).1 ≠ 12 := by
      rw [decode_fst]; rw [decode_fst] at hr; exact hr
    rw [visitsReject_append, h2, Bool.false_or, h3, visitsReject_cons]
    simp only [visitsReject, Bool.or_false, beq_eq_false_iff_ne, ne_eq]
    exact hr0
  · rw [run_append, h3, run_cons]
    simp only [run]
    rw [decode_fst, decode_fst st cp b]

theorem memmove_eq (s : List Nat) (dst src n : Nat) (h1 : src + n ≤ s.length)
    (h2 : dst + n ≤ s.length) :
    memmove s dst src n = some (s.take dst ++ (s.drop src).take n ++ s.drop (dst + n)) := by
  simp only [memmove, h1, h2, and_self, if_true]

theorem memmove_length (s : List Nat) (dst src n : Nat) (h1 : src + n ≤ s.length)
    (h2 : dst + n ≤ s.length) :
    (s.take dst ++ (s.drop src).take n ++ s.drop (dst + n)).length = s.length := by
  simp only [List.length_append, List.length_take, List.length_drop]
  omega

theorem memmove_take (s : List Nat) (dst src n : Nat) (h1 : src + n ≤ s.length)
    (h2 : dst + n ≤ s.length) :
    (s.take dst ++ (s.drop src).take n ++ s.drop (dst + n)).take (dst + n) =
      s.take dst ++ (s.drop src).take n := by
  have hl : (s.take dst ++ (s.drop src).take n).length = dst + n := by
    simp only [List.length_append, List.length_take, List.length_drop]
    omega
  rw [← hl, List.take_left]

theorem memmove_drop (s : List Nat) (dst src n k : Nat) (h1 : src + n ≤ s.length)
    (h2 : dst + n ≤ s.length) (hk : dst + n ≤ k) :
    (s.take dst ++ (s.drop src).take n ++ s.drop (dst + n)).drop k = s.drop k := by
  have hl : (s.take dst ++ (s.drop src).take n).length = dst + n := by
    simp only [List.length_append, List.length_take, List.length_drop]
    omega
  obtain ⟨d, rfl⟩ := Nat.exists_eq_add_of_le hk
  rw [← hl, ← List.drop_drop, List.drop_left, hl, List.drop_drop]

theorem take_succ_of_getElem (s : List Nat) (cur l i b : Nat) (hcl : cur + l = i + 1)
    (hl1 : 1 ≤ l) (hb : s[i]? = some b) :
    (s.drop cur).take l = (s.drop cur).take (l - 1) ++ [b] := by
  have hl : l = (l - 1) + 1 := by omega
  have hi : (s.drop cur)[l - 1]? = some b := by
    rw [List.getElem?_drop]
    rw [show cur + (l - 1) = i by omega]
    exact hb
  conv_lhs => rw [hl]
  rw [List.take_succ, hi]
  rfl

theorem drop_cons_of_getElem (s : List Nat) (i b : Nat) (hb : s[i]? = some b) :
    s.drop i = b :: s.drop (i + 1) := by
  obtain ⟨hi, hbi⟩ := List.getElem?_eq_some_iff.1 hb
  rw [List.drop_eq_getElem_cons hi, hbi]

theorem stripinval_loop_spec : ∀ (fuel : Nat) (s : List Nat) (i l cur dst move st cp : Nat),
    s.length < fuel + i → 0 ∈ s.drop i → cur + l = i + 1 → 1 ≤ l → dst ≤ cur →
    (move = 0 → dst = cur) →
    Steady 0 (s.take dst) → Steady st (s.take dst ++ (s.drop cur).take (l - 1)) →
    ∃ s1 dst1 move1,
      utf8_stripinval_loop fuel s i l cur dst move st cp = some (s1, dst1, move1) ∧
      s1.length = s.length ∧ dst1 < s1.length ∧ Steady 0 (s1.take dst1) ∧
      (move1 = 0 → s1 = s ∧ move = 0) ∧
      (move = 0 → visitsReject st cp (content (s.drop i)) = false → move1 = 0) := by
  intro fuel
  induction fuel with
  | zero =>
    intro s i l cur dst move st cp hfuel hz
    have : i < s.length := by
      by_contra hcon
      rw [List.drop_eq_nil_of_le (by omega)] at hz
      simp at hz
    omega
  | succ fuel ih =>
    intro s i l cur dst move st cp hfuel hz hcl hl1 hdc hmv hout hpend
    have hi : i < s.length := by
      by_contra hcon
      rw [List.drop_eq_nil_of_le (by omega)] at hz
      simp at hz
    obtain ⟨b, hb⟩ : ∃ b, s[i]? = some b := ⟨s[i], List.getElem?_eq_getElem hi⟩
    have hdrop := drop_cons_of_getElem s i b hb
    rw [utf8_stripinval_loop, hb]
    simp only
    by_cases hb0 : b = 0
    · subst hb0
      simp only [ne_eq, not_true_eq_false, if_false]
      exact ⟨s, dst, move, rfl, rfl, by omega, hout, fun h => ⟨rfl, h⟩, fun h _ => h⟩
    · rw [if_pos hb0]
      have hz1 : 0 ∈ s.drop (i + 1) := by
        rw [hdrop] at hz
        rcases List.mem_cons.1 hz with h | h
        · exact absurd h.symm hb0
        · exact h
      have hcont : content (s.drop i) = b :: content (s.drop (i + 1)) := by
        rw [hdrop, content_cons_ne b _ hb0]
      have htake := take_succ_of_getElem s cur l i b hcl hl1 hb
      by_cases hacc : (decode st cp b).1 = ACCEPT
      · rw [if_pos hacc]
        have hsn := steady_snoc st cp b _ hpend hb0 (by rw [hacc]; decide)
        rw [hacc, List.append_assoc, ← htake] at hsn
        by_cases hm0 : move = 0
        · have hdc2 := hmv hm0
          subst hdc2
          simp only [hm0, ne_eq, not_true_eq_false, if_false]
          have hsn2 : Steady 0 (s.take (dst + l)) := by
            rw [List.take_add]; exact hsn
          obtain ⟨s1, dst1, move1, h1, h2, h3, h4, h5, h6⟩ :=
            ih s (i + 1) 1 (dst + l) (dst + l) 0 ACCEPT (decode st cp b).2 (by omega) hz1
              (by omega) le_rfl le_rfl (fun _ => rfl) hsn2 (by simpa using hsn2)
          rw [hacc]
          refine ⟨s1, dst1, move1, h1, h2, h3, h4, fun h => ⟨(h5 h).1, trivial⟩, fun _ hv => ?_⟩
          rw [hcont, visitsReject_cons, hacc, Bool.or_eq_false_iff] at hv
          exact h6 rfl hv.2
        · rw [if_pos hm0, memmove_eq s dst cur l (by omega) (by omega)]
          simp only
          have hlen := memmove_length s dst cur l (by omega) (by omega)
          have hsn2 : Steady 0
              ((s.take dst ++ (s.drop cur).take l ++ s.drop (dst + l)).take (dst + l)) := by
            rw [memmove_take s dst cur l (by omega) (by omega)]; exact hsn
          obtain ⟨s1, dst1, move1, h1, h2, h3, h4, h5, h6⟩ :=
            ih (s.take dst ++ (s.drop cur).take l ++ s.drop (dst + l)) (i + 1) 1 (cur + l)
              (dst + l) move ACCEPT (decode st cp b).2 (by omega)
              (by rw [memmove_drop s dst cur l (i + 1) (by omega) (by omega) (by omega)]
                  exact hz1)
              (by omega) le_rfl (by omega) (fun h => absurd h hm0) hsn2 (by simpa using hsn2)
          rw [hacc]
          exact ⟨s1, dst1, move1, h1, by rw [h2, hlen], h3, h4,
            fun h => absurd (h5 h).2 hm0, fun h => absurd h hm0⟩
      · rw [if_neg hacc]
        by_cases hrej : (decode st cp b).1 = REJECT
        · rw [if_pos hrej]
          obtain ⟨s1, dst1, move1, h1, h2, h3, h4, h5, h6⟩ :=
            ih s (i + 1) 1 (cur + l) dst 1 ACCEPT (decode st cp b).2 (by omega) hz1
              (by omega) le_rfl (by omega) (fun h => absurd h (by decide)) hout
              (by simpa using hout)
          refine ⟨s1, dst1, move1, h1, h2, h3, h4, fun h => absurd (h5 h).2 (by decide),
            fun _ hv => ?_⟩
          rw [hcont, visitsReject_cons, hrej] at hv
          simp [REJECT] at hv
        · rw [if_neg hrej]
          have hsn := steady_snoc st cp b _ hpend hb0 hrej
          rw [List.append_assoc, ← htake] at hsn
          obtain ⟨s1, dst1, move1, h1, h2, h3, h4, h5, h6⟩ :=
            ih s (i + 1) (l + 1) cur dst move (decode st cp b).1 (decode st cp b).2 (by omega)
              hz1 (by omega) (by omega) hdc hmv hout (by simpa using hsn)
          refine ⟨s1, dst1, move1, h1, h2, h3, h4, h5, fun hm hv => ?_⟩
          rw [hcont, visitsReject_cons, Bool.or_eq_false_iff] at hv
          exact h6 hm hv.2

theorem stripinval_loop_init (s : List Nat) (hz : 0 ∈ s) :
    ∃ s1 dst1 move1,
      utf8_stripinval_loop (s.length + 1) s 0 1 0 0 0 ACCEPT 0 = some (s1, dst1, move1) ∧
      s1.length = s.length ∧ dst1 < s1.length ∧ Steady 0 (s1.take dst1) ∧
      (move1 = 0 → s1 = s ∧ 0 = 0) ∧
      (0 = 0 → visitsReject ACCEPT 0 (content (s.drop 0)) = false → move1 = 0) :=
  stripinval_loop_spec (s.length + 1) s 0 1 0 0 0 ACCEPT 0 (by omega) (by simpa using hz) rfl
    le_rfl le_rfl (fun _ => rfl) (by simpa using steady_nil) (by simpa using steady_nil)

theorem stripinval_clean (s : List Nat) (hz : 0 ∈ s)
    (hv : visitsReject ACCEPT 0 (content s) = false) :
    utf8_stripinval (some s) = some (0, s) := by
  obtain ⟨s1, dst1, move1, h1, _, _, _, h5, h6⟩ := stripinval_loop_init s hz
  have hm : move1 = 0 := h6 rfl (by simpa using hv)
  have hs : s1 = s := (h5 hm).1
  simp only [utf8_stripinval, h1, hm, hs, ne_eq, not_true_eq_false, if_false]

theorem stripinval_form (s : List Nat) (hz : 0 ∈ s) :
    utf8_stripinval (some s) = some (0, s) ∨
    ∃ out tail, utf8_stripinval (some s) = some (0, out ++ 0 :: tail) ∧ Steady 0 out := by
  obtain ⟨s1, dst1, move1, h1, h2, h3, h4, h5, _⟩ := stripinval_loop_init s hz
  by_cases hm : move1 = 0
  · left
    have hs : s1 = s := (h5 hm).1
    simp only [utf8_stripinval, h1, hm, hs, ne_eq, not_true_eq_false, if_false]
  · right
    refine ⟨s1.take dst1, s1.drop (dst1 + 1), ?_, h4⟩
    simp only [utf8_stripinval, h1, ne_eq, hm, not_false_eq_true, if_true, store, h3]
    rw [List.set_eq_take_cons_drop 0 h3]

/-- Claim C10: `utf8_stripinval` is idempotent.  On every zero-terminated buffer the call
returns 0 and leaves a buffer `s1`; a second call on `s1` returns 0 and leaves `s1` again,
so the buffer, and with it the zero-terminated content, is the same after two calls as
after one. -/
theorem utf8_stripinval_idempotent (s : List Nat) (hz : 0 ∈ s) :
    ∃ s1, utf8_stripinval (some s) = some (0, s1) ∧
      ∃ s2, utf8_stripinval (some s1) = some (0, s2) ∧ s2 = s1 ∧ content s2 = content s1 := by
  rcases stripinval_form s hz with h | ⟨out, tail, h, hst⟩
  · exact ⟨s, h, s, h, rfl, rfl⟩
  · refine ⟨out ++ 0 :: tail, h, out ++ 0 :: tail, ?_, rfl, rfl⟩
    apply stripinval_clean
    · simp
    · rw [content_append_zero out tail hst.1]
      exact hst.2.1

theorem utf8_stripinval_idempotent_witness :
    0 ∈ [0x41, 0xFF, 0xC3, 0xA4, 0xE0, 0x42, 0x43, 0xC3, 0] ∧
    ∃ s1, utf8_stripinval (some [0x41, 0xFF, 0xC3, 0xA4, 0xE0, 0x42, 0x43, 0xC3, 0]) =
        some (0, s1) ∧
      ∃ s2, utf8_stripinval (some s1) = some (0, s2) ∧ s2 = s1 ∧ content s2 = content s1 :=
  ⟨by decide,
    utf8_stripinval_idempotent [0x41, 0xFF, 0xC3, 0xA4, 0xE0, 0x42, 0x43, 0xC3, 0] (by decide)⟩


/-! ## Strip on input without invalid runs -/

theorem visitsReject_of_wellFormed (l : List Nat) (hb : ∀ b ∈ l, b < 256)
    (hwf : wellFormed l = true) : visitsReject ACCEPT 0 l = false := by
  have hspec := scanSpec l hb
  simp only [wellFormed] at hwf
  cases hs : specDecode l with
  | none => rw [hs] at hwf; simp at hwf
  | some cs => exact (hspec.1 cs hs).2.2

theorem wellFormed_of_ascii (l : List Nat) (h : ∀ b ∈ l, b ≤ 0x7F) : wellFormed l = true := by
  simp only [wellFormed, specDecode_of_ascii l h, Option.isSome_some]

/-- Claim C11: for every zero-terminated buffer whose scan never reaches `REJECT`, in
particular every ASCII-only buffer and every well-formed UTF-8 buffer, `utf8_stripinval`
returns 0 and leaves every byte of the buffer unchanged. -/
theorem utf8_stripinval_noop (s : List Nat) (hz : 0 ∈ s) :
    (visitsReject ACCEPT 0 (content s) = false → utf8_stripinval (some s) = some (0, s)) ∧
    ((∀ b ∈ content s, b ≤ 0x7F) → utf8_stripinval (some s) = some (0, s)) ∧
    ((∀ b ∈ s, b < 256) → wellFormed (content s) = true →
      utf8_stripinval (some s) = some (0, s)) := by
  refine ⟨fun hv => stripinval_clean s hz hv, fun hascii => ?_, fun hb hwf => ?_⟩
  · exact stripinval_clean s hz
      (visitsReject_of_wellFormed _ (fun b h => by have := hascii b h; omega)
        (wellFormed_of_ascii _ hascii))
  · exact stripinval_clean s hz
      (visitsReject_of_wellFormed _ (fun b h => hb b (content_sublist s b h)) hwf)

theorem utf8_stripinval_noop_witness :
    0 ∈ [0x41, 0xC3, 0xA4, 0xE2, 0x82, 0xAC, 0, 0x7A] ∧
    (∀ b ∈ [0x41, 0xC3, 0xA4, 0xE2, 0x82, 0xAC, 0, 0x7A], b < 256) ∧
    wellFormed (content [0x41, 0xC3, 0xA4, 0xE2, 0x82, 0xAC, 0, 0x7A]) = true ∧
    utf8_stripinval (some [0x41, 0xC3, 0xA4, 0xE2, 0x82, 0xAC, 0, 0x7A]) =
      some (0, [0x41, 0xC3, 0xA4, 0xE2, 0x82, 0xAC, 0, 0x7A]) :=
  ⟨by decide, by decide, by decide,
    (utf8_stripinval_noop [0x41, 0xC3, 0xA4, 0xE2, 0x82, 0xAC, 0, 0x7A] (by decide)).2.2
      (by decide) (by decide)⟩

/-- Claim C20 at the failing input `C3 00`, a buffer that ends in a truncated two-byte
sequence with no invalid run before it: `utf8_stripinval` returns 0 and leaves the buffer
as it is, and `utf8_check` on the result returns 1.  With an invalid run before the
truncated sequence (`FF C3 00`) the result is well-formed. -/
theorem utf8_stripinval_truncated_tail :
    utf8_stripinval (some [0xC3, 0]) = some (0, [0xC3, 0]) ∧
    utf8_check (some [0xC3, 0]) = some 1 ∧
    utf8_stripinval (some [0xFF, 0xC3, 0]) = some (0, [0, 0xC3, 0]) ∧
    utf8_check (some [0, 0xC3, 0]) = some 0 := by
  decide

/-! ## The case-fold lookup -/

set_option maxRecDepth 100000 in
theorem downcase_block_ranges :
    (∀ c < 0x5B, 0x41 ≤ c → downcase c = c + 0x20) ∧
    (∀ c < 0xD7, 0xC0 ≤ c → downcase c = c + 0x20) ∧
    (∀ c < 0xDF, 0xD8 ≤ c → downcase c = c + 0x20) := by
  decide

/-- Claim C16 at the failing input `U+019D`: the lookup returns `U+0273`, one more than
the lowercase counterpart `U+0272`, because `downcase_block` adds the range length 1 to
the shift 213.  The other three `Block` ranges map every codepoint to `c + 0x20`. -/
theorem downcase_019D :
    downcase 0x19D = 0x273 ∧ downcase 0x19D ≠ 0x272 ∧
    (∀ c < 0x5B, 0x41 ≤ c → downcase c = c + 0x20) ∧
    (∀ c < 0xD7, 0xC0 ≤ c → downcase c = c + 0x20) ∧
    (∀ c < 0xDF, 0xD8 ≤ c → downcase c = c + 0x20) :=
  ⟨by decide, by decide, downcase_block_ranges⟩


theorem downcase_loop_below (c : Nat) (t : List case_conversion_block)
    (h : ∀ blk ∈ t, c < blk.start) : downcase_loop c t = c := by
  rcases t with _ | ⟨a, rest⟩
  · rfl
  · simp only [downcase_loop, h a (by simp), if_true]

theorem downcase_loop_none (c : Nat) (t : List case_conversion_block)
    (hsmall : ∀ blk ∈ t, blk.start + blk.shift.len < 2 ^ 32)
    (h : ∀ blk ∈ t, ¬ inRange blk c) : downcase_loop c t = c := by
  induction t with
  | nil => rfl
  | cons a rest ih =>
    have ha := h a (by simp)
    have hs := hsmall a (by simp)
    simp only [inRange] at ha
    simp only [downcase_loop, Nat.mod_eq_of_lt hs]
    by_cases h1 : c < a.start
    · rw [if_pos h1]
    · rw [if_neg h1, if_pos (by omega)]
      exact ih (fun b hb => hsmall b (by simp [hb])) (fun b hb => h b (by simp [hb]))

theorem downcase_loop_single (c : Nat) (blk : case_conversion_block)
    (hs : blk.start + blk.shift.len < 2 ^ 32) (hin : inRange blk c) :
    downcase_loop c [blk] =
      if blk.shift.type = BLOCK then downcase_block c blk.shift
      else if blk.start % 2 = c % 2 then downcase_alt c blk.shift else c := by
  simp only [inRange] at hin
  simp only [downcase_loop, Nat.mod_eq_of_lt hs]
  rw [if_neg (by omega), if_neg (by omega)]

theorem downcase_loop_hit (c : Nat) (t : List case_conversion_block)
    (hsmall : ∀ blk ∈ t, blk.start + blk.shift.len < 2 ^ 32)
    (hpw : t.Pairwise (fun a b => a.start + a.shift.len ≤ b.start))
    (blk : case_conversion_block) (hmem : blk ∈ t) (hin : inRange blk c) :
    downcase_loop c t = downcase_loop c [blk] := by
  induction t with
  | nil => simp at hmem
  | cons a rest ih =>
    rw [List.pairwise_cons] at hpw
    have hs := hsmall a (by simp)
    rcases List.mem_cons.1 hmem with h | h
    · subst h
      have hrest : downcase_loop c rest = c :=
        downcase_loop_below c rest (fun b hb => by
          have := hpw.1 b hb
          simp only [inRange] at hin
          omega)
      simp only [downcase_loop, hrest]
    · have hle := hpw.1 blk h
      simp only [inRange] at hin
      rw [downcase_loop, if_neg (by omega), Nat.mod_eq_of_lt hs, if_pos (by omega)]
      exact ih (fun b hb => hsmall b (by simp [hb])) hpw.2 h

theorem g_ccb_small : ∀ blk ∈ g_ccb, blk.start + blk.shift.len < 2 ^ 32 := by decide

theorem g_ccb_bounds : ∀ blk ∈ g_ccb,
    0 ≤ blk.shift.dshift ∧ blk.start + blk.shift.len + blk.shift.dshift < 0x800 ∧
    blk.start + blk.shift.len ≤ 0x19E ∧
    (blk.shift.type = BLOCK ∨ blk.shift.type = ALTERNATING) := by decide

theorem g_ccb_pairwise :
    g_ccb.Pairwise (fun a b => a.start + a.shift.len ≤ b.start) := by decide

theorem g_ccb_disjoint : ∀ a ∈ g_ccb, ∀ b ∈ g_ccb,
    a = b ∨ a.start + a.shift.len ≤ b.start ∨ b.start + b.shift.len ≤ a.start := by decide

theorem downcase_hit (c : Nat) (blk : case_conversion_block) (hmem : blk ∈ g_ccb)
    (hin : inRange blk c) :
    downcase c =
      if blk.shift.type = BLOCK then downcase_block c blk.shift
      else if blk.start % 2 = c % 2 then downcase_alt c blk.shift else c := by
  rw [downcase, downcase_loop_hit c g_ccb g_ccb_small g_ccb_pairwise blk hmem hin,
    downcase_loop_single c blk (g_ccb_small blk hmem) hin]

theorem downcase_miss (c : Nat) (h : ∀ blk ∈ g_ccb, ¬ inRange blk c) : downcase c = c :=
  downcase_loop_none c g_ccb g_ccb_small h

/-- Claim C19: the table `g_ccb` is sorted strictly ascending by `start` and its ranges do
not overlap (`start + len` of an entry is at most the `start` of the next), so every
codepoint lies in at most one range, and the lookup over the whole table returns what the
lookup in the one range that holds the codepoint returns: the early `break` never skips
it. -/
theorem g_ccb_sorted :
    g_ccb.Pairwise (fun a b => a.start < b.start) ∧
    g_ccb.Chain' (fun a b => a.start + a.shift.len ≤ b.start) ∧
    (∀ c, ∀ a ∈ g_ccb, ∀ b ∈ g_ccb, inRange a c → inRange b c → a = b) ∧
    (∀ c, ∀ blk ∈ g_ccb, inRange blk c → downcase c = downcase_loop c [blk]) := by
  refine ⟨by decide, g_ccb_pairwise.chain', fun c a ha b hb hac hbc => ?_,
    fun c blk hmem hin => ?_⟩
  · simp only [inRange] at hac hbc
    rcases g_ccb_disjoint a ha b hb with h | h | h
    · exact h
    · omega
    · omega
  · rw [downcase]
    exact downcase_loop_hit c g_ccb g_ccb_small g_ccb_pairwise blk hmem hin

theorem g_ccb_sorted_witness :
    (⟨0x100, ⟨ALTERNATING, 55, 1⟩⟩ : case_conversion_block) ∈ g_ccb ∧
    inRange ⟨0x100, ⟨ALTERNATING, 55, 1⟩⟩ 0x102 ∧
    downcase 0x102 = downcase_loop 0x102 [⟨0x100, ⟨ALTERNATING, 55, 1⟩⟩] :=
  ⟨by decide, by decide,
    g_ccb_sorted.2.2.2 0x102 ⟨0x100, ⟨ALTERNATING, 55, 1⟩⟩ (by decide) (by decide)⟩

/-- Claim C17, as stated, fails: `A` (`U+0041`) lies in the `Block` range that starts at
`U+0041` with `dshift` 6, and the lookup returns `U+0061`, not `U+0041 + 6`. -/
theorem downcase_block_not_dshift :
    (⟨0x41, ⟨BLOCK, 26, 6⟩⟩ : case_conversion_block) ∈ g_ccb ∧
    inRange ⟨0x41, ⟨BLOCK, 26, 6⟩⟩ 0x41 ∧
    downcase 0x41 = 0x61 ∧ downcase 0x41 ≠ 0x41 + 6 := by
  decide

/-- Claim C17, amended: for every codepoint `c` inside a `Block` range
`downcase(c) = c + len + dshift` of that range; for every `c` inside an `Alternating` range
`downcase(c) = c + dshift` when `c` has the parity of the range start and `c` otherwise;
for every `c` in no range `downcase(c) = c`. -/
theorem downcase_rule (c : Nat) :
    (∀ blk ∈ g_ccb, inRange blk c → blk.shift.type = BLOCK →
      (downcase c : Int) = c + blk.shift.len + blk.shift.dshift) ∧
    (∀ blk ∈ g_ccb, inRange blk c → blk.shift.type = ALTERNATING →
      (c % 2 = blk.start % 2 → (downcase c : Int) = c + blk.shift.dshift) ∧
      (c % 2 ≠ blk.start % 2 → downcase c = c)) ∧
    ((∀ blk ∈ g_ccb, ¬ inRange blk c) → downcase c = c) := by
  refine ⟨fun blk hmem hin hty => ?_, fun blk hmem hin hty => ⟨fun hpar => ?_, fun hpar => ?_⟩,
    downcase_miss c⟩
  · obtain ⟨h0, h1, _, _⟩ := g_ccb_bounds blk hmem
    rw [downcase_hit c blk hmem hin, if_pos hty, downcase_block]
    simp only [inRange] at hin
    omega
  · obtain ⟨h0, h1, _, _⟩ := g_ccb_bounds blk hmem
    have hnb : ¬ blk.shift.type = BLOCK := by rw [hty]; decide
    rw [downcase_hit c blk hmem hin, if_neg hnb, if_pos hpar.symm, downcase_alt]
    simp only [inRange] at hin
    omega
  · have hnb : ¬ blk.shift.type = BLOCK := by rw [hty]; decide
    rw [downcase_hit c blk hmem hin, if_neg hnb, if_neg (fun h => hpar h.symm)]

theorem downcase_rule_witness :
    (⟨0x41, ⟨BLOCK, 26, 6⟩⟩ : case_conversion_block) ∈ g_ccb ∧
    inRange ⟨0x41, ⟨BLOCK, 26, 6⟩⟩ 0x42 ∧
    (downcase 0x42 : Int) = 0x42 + 26 + 6 :=
  ⟨by decide, by decide,
    (downcase_rule 0x42).1 ⟨0x41, ⟨BLOCK, 26, 6⟩⟩ (by decide) (by decide) rfl⟩

set_option maxRecDepth 1000000 in
theorem encoded_type_downcase_low :
    ∀ c < 0x19E, encoded_type (downcase c) = encoded_type c := by
  decide

theorem encoded_type_downcase (c : Nat) : encoded_type (downcase c) = encoded_type c := by
  by_cases h : c < 0x19E
  · exact encoded_type_downcase_low c h
  · rw [downcase_miss c (fun blk hmem hin => by
      have := (g_ccb_bounds blk hmem).2.2.1
      simp only [inRange] at hin
      omega)]

/-! ## Bounded and unbounded forms -/

theorem mem_tail_of_ne (b : Nat) (rest : List Nat) (hz : 0 ∈ b :: rest) (hb : b ≠ 0) :
    0 ∈ rest := by
  rcases List.mem_cons.1 hz with h | h
  · exact absurd h.symm hb
  · exact h

theorem utf8_ncheck_loop_eq (s : List Nat) : ∀ (len i st cp : Nat), 0 ∈ s →
    i + (content s).length ≤ len →
    utf8_ncheck_loop s len i st cp = utf8_check_loop s st cp := by
  induction s with
  | nil => intro len i st cp hz; simp at hz
  | cons b rest ih =>
    intro len i st cp hz hlen
    by_cases hb : b = 0
    · subst hb
      simp [utf8_ncheck_loop, utf8_check_loop]
    · rw [content_cons_ne b rest hb, List.length_cons] at hlen
      simp only [utf8_ncheck_loop, utf8_check_loop, ne_eq, hb, not_false_eq_true, and_true,
        if_true, show i < len by omega]
      exact ih len (i + 1) _ _ (mem_tail_of_ne b rest hz hb) (by omega)

theorem utf8_ncount_loop_eq (s : List Nat) : ∀ (len i st cp : Nat) (cnt : Int), 0 ∈ s →
    i + (content s).length ≤ len →
    utf8_ncount_loop s len i st cp cnt = utf8_count_loop s st cp cnt := by
  induction s with
  | nil => intro len i st cp cnt hz; simp at hz
  | cons b rest ih =>
    intro len i st cp cnt hz hlen
    by_cases hb : b = 0
    · subst hb
      simp [utf8_ncount_loop, utf8_count_loop]
    · rw [content_cons_ne b rest hb, List.length_cons] at hlen
      simp only [utf8_ncount_loop, utf8_count_loop, ne_eq, hb, not_false_eq_true, and_true,
        if_true, show i < len by omega]
      exact ih len (i + 1) _ _ _ (mem_tail_of_ne b rest hz hb) (by omega)

theorem utf8_nlen_loop_eq_len (s : List Nat) : ∀ (len i st cp : Nat) (bc : Int), 0 ∈ s →
    i + (content s).length ≤ len →
    utf8_nlen_loop s len i st cp bc = utf8_len_loop s i st cp bc := by
  induction s with
  | nil => intro len i st cp bc hz; simp at hz
  | cons b rest ih =>
    intro len i st cp bc hz hlen
    by_cases hb : b = 0
    · subst hb
      simp [utf8_nlen_loop, utf8_len_loop]
    · rw [content_cons_ne b rest hb, List.length_cons] at hlen
      simp only [utf8_nlen_loop, utf8_len_loop, ne_eq, hb, not_false_eq_true, and_true,
        if_true, show i < len by omega]
      exact ih len (i + 1) _ _ _ (mem_tail_of_ne b rest hz hb) (by omega)

theorem utf8_len_loop_eq (s : List Nat) : ∀ (i st cp : Nat) (bc : Int), 0 ∈ s →
    utf8_len_loop s i st cp bc = some (lastAccept st cp (content s) i bc) := by
  induction s with
  | nil => intro i st cp bc hz; simp at hz
  | cons b rest ih =>
    intro i st cp bc hz
    by_cases hb : b = 0
    · subst hb
      rw [content_cons_zero]
      simp [utf8_len_loop, lastAccept]
    · rw [content_cons_ne b rest hb]
      simp only [utf8_len_loop, lastAccept, ne_eq, hb, not_false_eq_true, if_true]
      exact ih (i + 1) _ _ _ (mem_tail_of_ne b rest hz hb)

theorem memmove_some (s : List Nat) (dst src n : Nat) (s1 : List Nat)
    (h : memmove s dst src n = some s1) :
    src + n ≤ s.length ∧ dst + n ≤ s.length ∧
    s1 = s.take dst ++ (s.drop src).take n ++ s.drop (dst + n) := by
  unfold memmove at h
  split_ifs at h with hc
  simp only [Option.some.injEq] at h
  exact ⟨hc.1, hc.2, h.symm⟩

theorem utf8_nstripinval_loop_eq : ∀ (fuel : Nat) (s : List Nat)
    (len i l cur dst move st cp : Nat),
    0 ∈ s.drop i → i + (content (s.drop i)).length ≤ len → cur + l = i + 1 → dst ≤ cur →
    utf8_nstripinval_loop fuel s len i l cur dst move st cp =
      utf8_stripinval_loop fuel s i l cur dst move st cp := by
  intro fuel
  induction fuel with
  | zero => intro s len i l cur dst move st cp _ _ _ _; rfl
  | succ fuel ih =>
    intro s len i l cur dst move st cp hz hlen hcl hdc
    have hi : i < s.length := by
      by_contra hcon
      rw [List.drop_eq_nil_of_le (by omega)] at hz
      simp at hz
    obtain ⟨b, hb⟩ : ∃ b, s[i]? = some b := ⟨s[i], List.getElem?_eq_getElem hi⟩
    have hdrop := drop_cons_of_getElem s i b hb
    rw [utf8_nstripinval_loop, utf8_stripinval_loop, hb]
    simp only
    by_cases hb0 : b = 0
    · subst hb0
      simp
    · have hz1 : 0 ∈ s.drop (i + 1) := by
        rw [hdrop] at hz
        exact mem_tail_of_ne b _ hz hb0
      rw [hdrop, content_cons_ne b _ hb0, List.length_cons] at hlen
      rw [if_pos (show i < len by omega), if_pos hb0, if_pos hb0]
      by_cases hacc : (decode st cp b).1 = ACCEPT
      · rw [if_pos hacc, if_pos hacc]
        cases hm : (if move ≠ 0 then memmove s dst cur l else some s) with
        | none => rfl
        | some s1 =>
          simp only
          have hs1 : s1.drop (i + 1) = s.drop (i + 1) := by
            by_cases hm0 : move ≠ 0
            · rw [if_pos hm0] at hm
              obtain ⟨h1, h2, h3⟩ := memmove_some s dst cur l s1 hm
              rw [h3, memmove_drop s dst cur l (i + 1) h1 h2 (by omega)]
            · rw [if_neg hm0] at hm
              simp only [Option.some.injEq] at hm
              rw [hm]
          exact ih s1 len (i + 1) 1 (cur + l) (dst + l) move _ _ (by rw [hs1]; exact hz1)
            (by rw [hs1]; omega) (by omega) (by omega)
      · rw [if_neg hacc, if_neg hacc]
        by_cases hrej : (decode st cp b).1 = REJECT
        · rw [if_pos hrej, if_pos hrej]
          exact ih s len (i + 1) 1 (cur + l) dst 1 _ _ hz1 (by omega) (by omega) (by omega)
        · rw [if_neg hrej, if_neg hrej]
          exact ih s len (i + 1) (l + 1) cur dst move _ _ hz1 (by omega) (by omega) hdc

/-- Claim C14: for every zero-terminated buffer and every positive bound `N` that equals
or exceeds its zero-terminated length, the bounded and the unbounded forms agree:
`utf8_ncheck`, `utf8_ncount` and `utf8_nlen` return what `utf8_check`, `utf8_count` and
`utf8_len` return, and `utf8_nstripinval` returns the same value and leaves the same buffer
as `utf8_stripinval`; all of them return. -/
theorem bounded_agree (s : List Nat) (N : Nat) (hz : 0 ∈ s) (hN : 1 ≤ N)
    (hlen : (content s).length ≤ N) :
    (utf8_ncheck (some s) N = utf8_check (some s) ∧ (utf8_check (some s)).isSome = true) ∧
    (utf8_ncount (some s) N = utf8_count (some s) ∧ (utf8_count (some s)).isSome = true) ∧
    (utf8_nlen (some s) N = utf8_len (some s) ∧ (utf8_len (some s)).isSome = true) ∧
    (utf8_nstripinval (some s) N = utf8_stripinval (some s) ∧
      (utf8_stripinval (some s)).isSome = true) := by
  refine ⟨⟨?_, ?_⟩, ⟨?_, ?_⟩, ⟨?_, ?_⟩, ⟨?_, ?_⟩⟩
  · simp only [utf8_ncheck, utf8_check, show ¬ N = 0 by omega, if_false,
      utf8_ncheck_loop_eq s N 0 ACCEPT 0 hz (by omega)]
  · simp only [utf8_check, utf8_check_loop_eq s hz, Option.isSome_some]
  · simp only [utf8_ncount, utf8_count, show ¬ N = 0 by omega, if_false,
      utf8_ncount_loop_eq s N 0 ACCEPT 0 0 hz (by omega)]
  · simp only [utf8_count, utf8_count_loop_eq s hz, Option.isSome_some]
  · simp only [utf8_nlen, utf8_len, utf8_nlen_loop_eq_len s N 0 ACCEPT 0 0 hz (by omega)]
  · simp only [utf8_len, utf8_len_loop_eq s 0 ACCEPT 0 0 hz, Option.isSome_some]
  · simp only [utf8_nstripinval, utf8_stripinval,
      utf8_nstripinval_loop_eq (s.length + 1) s N 0 1 0 0 0 ACCEPT 0 (by simpa using hz)
        (by simpa using hlen) rfl le_rfl]
  · rcases stripinval_form s hz with h | ⟨out, tail, h, _⟩ <;> rw [h] <;> rfl

theorem bounded_agree_witness :
    0 ∈ [0x41, 0xFF, 0xC3, 0xA4, 0] ∧ 1 ≤ 4 ∧ (content [0x41, 0xFF, 0xC3, 0xA4, 0]).length ≤ 4 ∧
    utf8_ncheck (some [0x41, 0xFF, 0xC3, 0xA4, 0]) 4 = utf8_check (some [0x41, 0xFF, 0xC3, 0xA4, 0]) ∧
    utf8_nstripinval (some [0x41, 0xFF, 0xC3, 0xA4, 0]) 4 =
      utf8_stripinval (some [0x41, 0xFF, 0xC3, 0xA4, 0]) :=
  ⟨by decide, by decide, by decide,
    (bounded_agree [0x41, 0xFF, 0xC3, 0xA4, 0] 4 (by decide) (by decide) (by decide)).1.1,
    (bounded_agree [0x41, 0xFF, 0xC3, 0xA4, 0] 4 (by decide) (by decide) (by decide)).2.2.2.1⟩

theorem content_length_lt (s : List Nat) (hz : 0 ∈ s) : (content s).length < s.length := by
  induction s with
  | nil => simp at hz
  | cons b rest ih =>
    by_cases hb : b = 0
    · subst hb
      rw [content_cons_zero]
      simp
    · rw [content_cons_ne b rest hb]
      have := ih (mem_tail_of_ne b rest hz hb)
      simp only [List.length_cons]
      omega

theorem lastAccept_bounds (l : List Nat) : ∀ (st cp i : Nat) (bc : Int), 0 ≤ bc →
    0 ≤ lastAccept st cp l i bc ∧
    (lastAccept st cp l i bc = bc ∨
      ((i : Int) ≤ lastAccept st cp l i bc ∧ lastAccept st cp l i bc < (i : Int) + l.length)) := by
  induction l with
  | nil => intro st cp i bc hbc; exact ⟨hbc, Or.inl rfl⟩
  | cons b l ih =>
    intro st cp i bc hbc
    simp only [lastAccept, List.length_cons]
    by_cases ha : (decode st cp b).1 = ACCEPT
    · rw [if_pos ha]
      obtain ⟨h1, h2⟩ := ih (decode st cp b).1 (decode st cp b).2 (i + 1) (i : Int) (by omega)
      refine ⟨h1, Or.inr ?_⟩
      rcases h2 with h | h
      · rw [h]; push_cast; omega
      · push_cast at h ⊢; omega
    · rw [if_neg ha]
      obtain ⟨h1, h2⟩ := ih (decode st cp b).1 (decode st cp b).2 (i + 1) bc hbc
      refine ⟨h1, ?_⟩
      rcases h2 with h | h
      · exact Or.inl h
      · right; push_cast at h ⊢; omega

/-- Claim C15, as stated, fails: on the buffer `41 00 00` the bound 1 equals the
zero-terminated length; `utf8_term` returns 0 and `utf8_nterm` returns `-ENOMEM`. -/
theorem utf8_nterm_bound_equal :
    (content [0x41, 0, 0]).length = 1 ∧
    utf8_term (some [0x41, 0, 0]) = some (0, [0x41, 0, 0]) ∧
    utf8_nterm (some [0x41, 0, 0]) 1 = some (-ENOMEM, [0x41, 0, 0]) := by
  decide

/-- Claim C15, amended: for every zero-terminated buffer of at least two bytes and every
bound `N` that exceeds its zero-terminated length and is at least 2, `utf8_nterm` agrees
with `utf8_term`: both return 0 and leave the same buffer. -/
theorem utf8_nterm_agree (s : List Nat) (N : Nat) (hz : 0 ∈ s) (hslack : 2 ≤ s.length)
    (hN : (content s).length < N) (hN2 : 2 ≤ N) :
    ∃ s1, utf8_term (some s) = some (0, s1) ∧ utf8_nterm (some s) N = some (0, s1) := by
  have hlen : utf8_len (some s) = some (lastAccept ACCEPT 0 (content s) 0 0) := by
    simp only [utf8_len, utf8_len_loop_eq s 0 ACCEPT 0 0 hz]
  have hnlen : utf8_nlen (some s) N = some (lastAccept ACCEPT 0 (content s) 0 0) := by
    simp only [utf8_nlen, utf8_nlen_loop_eq_len s N 0 ACCEPT 0 0 hz (by omega),
      utf8_len_loop_eq s 0 ACCEPT 0 0 hz]
  obtain ⟨h0, hb⟩ := lastAccept_bounds (content s) ACCEPT 0 0 0 le_rfl
  have hcl := content_length_lt s hz
  generalize lastAccept ACCEPT 0 (content s) 0 0 = bc at hlen hnlen h0 hb
  have hidx : (bc + 1).toNat < s.length := by omega
  refine ⟨s.set (bc + 1).toNat 0, ?_, ?_⟩
  · simp only [utf8_term, hlen, show ¬ bc < 0 by omega, if_false, Option.getD_some, store,
      hidx, if_true]
  · simp only [utf8_nterm, hnlen, show ¬ bc < 0 by omega, if_false, Option.getD_some, store,
      hidx, if_true, show ¬ (bc + 1 ≥ (N : Int)) by omega]

theorem utf8_nterm_agree_witness :
    0 ∈ [0x41, 0xC3, 0xA4, 0xFF, 0] ∧ 2 ≤ [0x41, 0xC3, 0xA4, 0xFF, 0].length ∧
    (content [0x41, 0xC3, 0xA4, 0xFF, 0]).length < 5 ∧ 2 ≤ 5 ∧
    ∃ s1, utf8_term (some [0x41, 0xC3, 0xA4, 0xFF, 0]) = some (0, s1) ∧
      utf8_nterm (some [0x41, 0xC3, 0xA4, 0xFF, 0]) 5 = some (0, s1) :=
  ⟨by decide, by decide, by decide, by decide,
    utf8_nterm_agree [0x41, 0xC3, 0xA4, 0xFF, 0] 5 (by decide) (by decide) (by decide)
      (by decide)⟩

/-! ## Decoded sequences are encodings -/

theorem encode_length (c : Nat) : (encode c).length = encoded_type c := by
  simp only [encode, encoded_type]
  split_ifs <;> rfl

theorem encode_lt (c : Nat) : ∀ b ∈ encode c, b < 256 := by
  intro b hb
  simp only [encode, encoded_type] at hb
  split_ifs at hb <;>
    simp only [encode1, encode2, encode3, encode4, List.mem_cons, List.mem_singleton,
      List.not_mem_nil, or_false] at hb <;>
    omega

theorem specOne_encode (l : List Nat) (c : Nat) (r : List Nat) (hb : ∀ b ∈ l, b < 256)
    (h : specDecodeOne l = some (c, r)) :
    l = encode c ++ r ∧ c ≤ 0x10FFFF ∧ ¬ (0xD800 ≤ c ∧ c ≤ 0xDFFF) ∧
      ((∀ b ∈ l, b ≠ 0) → 1 ≤ c) := by
  rcases l with _ | ⟨b0, rest⟩
  · simp [specDecodeOne] at h
  · by_cases h1 : b0 ≤ 0x7F
    · rw [specDecodeOne_ascii b0 rest h1] at h
      simp only [Option.some.injEq, Prod.mk.injEq] at h
      obtain ⟨rfl, rfl⟩ := h
      rw [encode_eq1 b0 (by omega)]
      refine ⟨rfl, by omega, by omega, fun hnz => ?_⟩
      have := hnz b0 (by simp)
      omega
    by_cases h2 : 0xC2 ≤ b0 ∧ b0 ≤ 0xDF
    · rcases rest with _ | ⟨b1, r1⟩
      · rw [specDecodeOne_lead2_short b0 h2.1 h2.2] at h; simp at h
      · rw [specDecodeOne_lead2 b0 b1 r1 h2.1 h2.2] at h
        split_ifs at h with hc
        simp only [isCont, Bool.and_eq_true, decide_eq_true_eq] at hc
        simp only [Option.some.injEq, Prod.mk.injEq] at h
        obtain ⟨rfl, rfl⟩ := h
        rw [encode_eq2 _ (by omega) (by omega)]
        refine ⟨?_, by omega, by omega, fun _ => by omega⟩
        simp only [List.cons_append, List.nil_append, List.cons.injEq, and_true]
        omega
    by_cases h3 : 0xE0 ≤ b0 ∧ b0 ≤ 0xEF
    · rcases rest with _ | ⟨b1, _ | ⟨b2, r1⟩⟩
      · rw [specDecodeOne_lead3_short b0 _ h3.1 h3.2 (by simp)] at h; simp at h
      · rw [specDecodeOne_lead3_short b0 _ h3.1 h3.2 (by simp)] at h; simp at h
      · rw [specDecodeOne_lead3 b0 b1 b2 r1 h3.1 h3.2] at h
        split_ifs at h with hc
        simp only [isCont, Bool.and_eq_true, decide_eq_true_eq] at hc
        simp only [Option.some.injEq, Prod.mk.injEq] at h
        obtain ⟨rfl, rfl⟩ := h
        rw [encode_eq3 _ (by omega) (by omega)]
        refine ⟨?_, by omega, by omega, fun _ => by omega⟩
        simp only [List.cons_append, List.nil_append, List.cons.injEq, and_true]
        omega
    by_cases h4 : 0xF0 ≤ b0 ∧ b0 ≤ 0xF4
    · rcases rest with _ | ⟨b1, _ | ⟨b2, _ | ⟨b3, r1⟩⟩⟩
      · rw [specDecodeOne_lead4_short b0 _ h4.1 h4.2 (by simp)] at h; simp at h
      · rw [specDecodeOne_lead4_short b0 _ h4.1 h4.2 (by simp)] at h; simp at h
      · rw [specDecodeOne_lead4_short b0 _ h4.1 h4.2 (by simp)] at h; simp at h
      · rw [specDecodeOne_lead4 b0 b1 b2 b3 r1 h4.1 h4.2] at h
        split_ifs at h with hc
        simp only [isCont, Bool.and_eq_true, decide_eq_true_eq] at hc
        simp only [Option.some.injEq, Prod.mk.injEq] at h
        obtain ⟨rfl, rfl⟩ := h
        rw [encode_eq4 _ (by omega) (by omega)]
        refine ⟨?_, by omega, by omega, fun _ => by omega⟩
        simp only [List.cons_append, List.nil_append, List.cons.injEq, and_true]
        omega
    rw [specDecodeOne_bad b0 rest h1 h2 h3 h4] at h
    simp at h

theorem specDecode_eq_nil (l : List Nat) (h : specDecode l = some []) : l = [] := by
  rcases l with _ | ⟨b0, rest⟩
  · rfl
  · rw [specDecode_cons] at h
    cases hone : specDecodeOne (b0 :: rest) with
    | none => rw [hone] at h; simp at h
    | some p =>
      obtain ⟨c, r⟩ := p
      rw [hone] at h
      simp only at h
      cases hs : specDecode r with
      | none => rw [hs] at h; simp at h
      | some cs => rw [hs] at h; simp at h

theorem specDecode_flatMap (n : Nat) : ∀ (l cs : List Nat), l.length ≤ n →
    (∀ b ∈ l, b < 256) → specDecode l = some cs →
    l = cs.flatMap encode ∧ ((∀ b ∈ l, b ≠ 0) → ∀ c ∈ cs, isScalar c) := by
  induction n using Nat.strong_induction_on with
  | _ n ih =>
    intro l cs hl hb h
    rcases l with _ | ⟨b0, rest⟩
    · rw [specDecode_nil] at h
      simp only [Option.some.injEq] at h
      subst h
      exact ⟨rfl, fun _ c hc => by simp at hc⟩
    · rw [specDecode_cons] at h
      cases hone : specDecodeOne (b0 :: rest) with
      | none => rw [hone] at h; simp at h
      | some p =>
        obtain ⟨c, r⟩ := p
        rw [hone] at h
        simp only at h
        cases hs : specDecode r with
        | none => rw [hs] at h; simp at h
        | some cs1 =>
          rw [hs] at h
          simp only [Option.map_some', Option.some.injEq] at h
          subst h
          obtain ⟨e1, e2, e3, e4⟩ := specOne_encode _ c r hb hone
          have hrl := specDecodeOne_length _ _ _ hone
          have hbr : ∀ b ∈ r, b < 256 := fun b hbm => hb b (by rw [e1]; simp [hbm])
          obtain ⟨i1, i2⟩ := ih r.length (by omega) r cs1 le_rfl hbr hs
          refine ⟨?_, fun hnz x hx => ?_⟩
          · rw [List.flatMap_cons, ← i1]
            exact e1
          · rcases List.mem_cons.1 hx with hx | hx
            · rw [hx]
              exact ⟨e4 hnz, e2, e3⟩
            · exact i2 (fun b hbm => hnz b (by rw [e1]; simp [hbm])) x hx

theorem accepted_append (l1 l2 : List Nat) : ∀ (st cp : Nat),
    accepted st cp (l1 ++ l2) =
      accepted st cp l1 ++ accepted (run st cp l1).1 (run st cp l1).2 l2 := by
  induction l1 with
  | nil => intro st cp; rfl
  | cons b l ih =>
    intro st cp
    rw [List.cons_append, accepted_cons, accepted_cons, run_cons, ih]
    split_ifs <;> rfl

theorem seq_of_accept (l : List Nat) (c : Nat) (hb : ∀ b ∈ l, b < 256)
    (hrun : (run 0 0 l).1 = 0) (hacc : accepted 0 0 l = [c]) : l = encode c := by
  have hspec := scanSpec l hb
  cases hs : specDecode l with
  | none => exact absurd hrun (hspec.2 hs)
  | some cs =>
    have h2 := (hspec.1 cs hs).2.1
    rw [hacc] at h2
    subst h2
    have := (specDecode_flatMap l.length l [c] le_rfl hb hs).1
    simpa using this


/-! ## Case folding in place: the loop of `utf8_downcase` -/

theorem splice_length (s w : List Nat) (p : Nat) (h : p + w.length ≤ s.length) :
    (s.take p ++ w ++ s.drop (p + w.length)).length = s.length := by
  simp only [List.length_append, List.length_take, List.length_drop]
  omega

theorem splice_take (s w : List Nat) (p : Nat) (h : p + w.length ≤ s.length) :
    (s.take p ++ w ++ s.drop (p + w.length)).take (p + w.length) = s.take p ++ w := by
  have hl : (s.take p ++ w).length = p + w.length := by
    simp only [List.length_append, List.length_take]
    omega
  rw [← hl, List.take_left]

theorem splice_drop (s w : List Nat) (p k : Nat) (h : p + w.length ≤ s.length)
    (hk : p + w.length ≤ k) :
    (s.take p ++ w ++ s.drop (p + w.length)).drop k = s.drop k := by
  have hl : (s.take p ++ w).length = p + w.length := by
    simp only [List.length_append, List.length_take]
    omega
  obtain ⟨d, rfl⟩ := Nat.exists_eq_add_of_le hk
  rw [← hl, ← List.drop_drop, List.drop_left, hl, List.drop_drop]

theorem downcaseBytes_nil : downcaseBytes [] = [] := rfl

theorem downcaseBytes_cons (c : Nat) (cs : List Nat) :
    downcaseBytes (c :: cs) = encode (downcase c) ++ downcaseBytes cs := by
  simp only [downcaseBytes, List.map_cons, List.flatMap_cons]

theorem downcase_loop_spec : ∀ (fuel : Nat) (buf : List Nat) (si p st cp : Nat),
    buf.length < fuel + si → 0 ∈ buf.drop si → p ≤ si → (∀ b ∈ buf, b < 256) →
    (∀ l2, accepted 0 0 ((buf.drop p).take (si - p) ++ l2) = accepted st cp l2 ∧
      (run 0 0 ((buf.drop p).take (si - p) ++ l2)).1 = (run st cp l2).1) →
    ∃ buf1 si1 p1, utf8_downcase_loop fuel buf si p st cp = some (buf1, si1, p1) ∧
      p1 ≤ si1 ∧
      buf1 = buf.take p ++ downcaseBytes (accepted st cp (content (buf.drop si))) ++
        buf.drop p1 ∧
      p1 = p + (downcaseBytes (accepted st cp (content (buf.drop si)))).length ∧
      si1 = si + (content (buf.drop si)).length := by
  intro fuel
  induction fuel with
  | zero =>
    intro buf si p st cp hfuel hz
    have : si < buf.length := by
      by_contra hcon
      rw [List.drop_eq_nil_of_le (by omega)] at hz
      simp at hz
    omega
  | succ fuel ih =>
    intro buf si p st cp hfuel hz hps hb hinv
    have hi : si < buf.length := by
      by_contra hcon
      rw [List.drop_eq_nil_of_le (by omega)] at hz
      simp at hz
    obtain ⟨b, hbi⟩ : ∃ b, buf[si]? = some b := ⟨buf[si], List.getElem?_eq_getElem hi⟩
    have hdrop := drop_cons_of_getElem buf si b hbi
    rw [utf8_downcase_loop, hbi]
    simp only
    by_cases hb0 : b = 0
    · subst hb0
      simp only [ne_eq, not_true_eq_false, if_false]
      refine ⟨buf, si, p, rfl, hps, ?_, ?_, ?_⟩
      · rw [hdrop, content_cons_zero]
        simp [accepted, downcaseBytes_nil]
      · rw [hdrop, content_cons_zero]
        simp [accepted, downcaseBytes_nil]
      · rw [hdrop, content_cons_zero]
        simp
    · rw [if_pos hb0]
      have hz1 : 0 ∈ buf.drop (si + 1) := by
        rw [hdrop] at hz
        exact mem_tail_of_ne b _ hz hb0
      have hcont : content (buf.drop si) = b :: content (buf.drop (si + 1)) := by
        rw [hdrop, content_cons_ne b _ hb0]
      have htake : (buf.drop p).take (si + 1 - p) = (buf.drop p).take (si - p) ++ [b] := by
        have := take_succ_of_getElem buf p (si + 1 - p) si b (by omega) (by omega) hbi
        rw [this, show si + 1 - p - 1 = si - p by omega]
      have hinv1 : ∀ l2, accepted 0 0 ((buf.drop p).take (si + 1 - p) ++ l2) =
            accepted st cp (b :: l2) ∧
          (run 0 0 ((buf.drop p).take (si + 1 - p) ++ l2)).1 = (run st cp (b :: l2)).1 := by
        intro l2
        rw [htake, List.append_assoc]
        exact hinv ([b] ++ l2)
      by_cases hacc : (decode st cp b).1 = ACCEPT
      · rw [if_pos hacc]
        have hacc0 : (decode st cp b).1 = 0 := hacc
        have hseq : (buf.drop p).take (si + 1 - p) = encode (decode st cp b).2 := by
          apply seq_of_accept
          · intro x hx
            exact hb x ((List.drop_sublist _ _).subset ((List.take_sublist _ _).subset hx))
          · have := (hinv1 []).2
            rw [List.append_nil] at this
            rw [this, run_cons, hacc0]
            rfl
          · have := (hinv1 []).1
            rw [List.append_nil] at this
            rw [this, accepted_cons, if_pos hacc0]
            rfl
        have hwlen : (encode (downcase (decode st cp b).2)).length = si + 1 - p := by
          rw [encode_length, encoded_type_downcase, ← encode_length, ← hseq,
            List.length_take, List.length_drop]
          omega
        have hfit : p + (encode (downcase (decode st cp b).2)).length ≤ buf.length := by
          rw [hwlen]; omega
        rw [store_bytes, if_pos hfit]
        simp only
        have hp1 : p + (encode (downcase (decode st cp b).2)).length = si + 1 := by
          rw [hwlen]; omega
        obtain ⟨buf1, si1, p1, h1, h2, h3, h4, h5⟩ :=
          ih (buf.take p ++ encode (downcase (decode st cp b).2) ++
              buf.drop (p + (encode (downcase (decode st cp b).2)).length))
            (si + 1) (p + (encode (downcase (decode st cp b).2)).length)
            (decode st cp b).1 (decode st cp b).2
            (by rw [splice_length buf _ p hfit]; omega)
            (by rw [splice_drop buf _ p (si + 1) hfit (by omega)]; exact hz1)
            (by omega)
            (by
              intro x hx
              rcases List.mem_append.1 hx with hx | hx
              · rcases List.mem_append.1 hx with hx | hx
                · exact hb x ((List.take_sublist _ _).subset hx)
                · exact encode_lt _ x hx
              · exact hb x ((List.drop_sublist _ _).subset hx))
            (by
              intro l2
              rw [hp1, Nat.sub_self, List.take_zero, List.nil_append, hacc0]
              exact ⟨(accepted_accept_irrel _ l2).symm, (run_accept_irrel _ l2).symm⟩)
        rw [splice_drop buf _ p (si + 1) hfit (by omega)] at h3 h4 h5
        refine ⟨buf1, si1, p1, h1, h2, ?_, ?_, ?_⟩
        · rw [h3, hcont, accepted_cons, if_pos hacc0, downcaseBytes_cons,
            splice_take buf _ p hfit, splice_drop buf _ p p1 hfit (by omega)]
          simp only [List.append_assoc]
        · rw [h4, hcont, accepted_cons, if_pos hacc0, downcaseBytes_cons, List.length_append]
          omega
        · rw [h5, hcont, List.length_cons]
          omega
      · rw [if_neg hacc]
        have hacc0 : ¬ (decode st cp b).1 = 0 := hacc
        obtain ⟨buf1, si1, p1, h1, h2, h3, h4, h5⟩ :=
          ih buf (si + 1) p (decode st cp b).1 (decode st cp b).2 (by omega) hz1 (by omega) hb
            (by
              intro l2
              obtain ⟨e1, e2⟩ := hinv1 l2
              rw [accepted_cons, if_neg hacc0] at e1
              rw [run_cons] at e2
              exact ⟨e1, e2⟩)
        refine ⟨buf1, si1, p1, h1, h2, ?_, ?_, ?_⟩
        · rw [h3, hcont, accepted_cons, if_neg hacc0]
        · rw [h4, hcont, accepted_cons, if_neg hacc0]
        · rw [h5, hcont, List.length_cons]
          omega

theorem content_split (s : List Nat) (hz : 0 ∈ s) :
    s = content s ++ s.drop (content s).length ∧
    ∃ tail, s.drop (content s).length = 0 :: tail := by
  induction s with
  | nil => simp at hz
  | cons b rest ih =>
    by_cases hb : b = 0
    · subst hb
      rw [content_cons_zero]
      exact ⟨rfl, rest, rfl⟩
    · rw [content_cons_ne b rest hb]
      obtain ⟨h1, tail, h2⟩ := ih (mem_tail_of_ne b rest hz hb)
      simp only [List.length_cons, List.drop_succ_cons, List.cons_append]
      exact ⟨by rw [← h1], tail, h2⟩

theorem downcase_result (s : List Nat) (hz : 0 ∈ s) (hb : ∀ b ∈ s, b < 256) :
    ∃ si p, utf8_downcase_loop (s.length + 1) s 0 0 ACCEPT 0 =
        some (downcaseBytes (accepted ACCEPT 0 (content s)) ++ s.drop p, si, p) ∧
      p ≤ si ∧ p = (downcaseBytes (accepted ACCEPT 0 (content s))).length ∧
      si = (content s).length := by
  obtain ⟨buf1, si1, p1, h1, h2, h3, h4, h5⟩ :=
    downcase_loop_spec (s.length + 1) s 0 0 ACCEPT 0 (by omega) (by simpa using hz) le_rfl hb
      (fun l2 => by simp [ACCEPT])
  simp only [List.take_zero, List.nil_append, List.drop_zero, Nat.zero_add] at h3 h4 h5
  refine ⟨si1, p1, ?_, h2, h4, h5⟩
  rw [h1, h3]

set_option maxRecDepth 1000000 in
theorem downcase_low_scalar : ∀ c < 0x19E, 1 ≤ c → 1 ≤ downcase c ∧ downcase c < 0xD800 := by
  decide

theorem downcase_high (c : Nat) (h : ¬ c < 0x19E) : downcase c = c :=
  downcase_miss c (fun blk hmem hin => by
    have := (g_ccb_bounds blk hmem).2.2.1
    simp only [inRange] at hin
    omega)

theorem downcase_scalar (c : Nat) (h : isScalar c) : isScalar (downcase c) := by
  by_cases hc : c < 0x19E
  · obtain ⟨h1, h2⟩ := downcase_low_scalar c hc h.1
    exact ⟨h1, by omega, by omega⟩
  · rw [downcase_high c hc]
    exact h

theorem downcaseBytes_length (cs : List Nat) :
    (downcaseBytes cs).length = (cs.flatMap encode).length := by
  induction cs with
  | nil => rfl
  | cons c cs ih =>
    rw [downcaseBytes_cons, List.flatMap_cons, List.length_append, List.length_append, ih,
      encode_length, encode_length, encoded_type_downcase]

theorem downcaseBytes_eq (cs : List Nat) :
    downcaseBytes cs = (cs.map downcase).flatMap encode := rfl

set_option maxRecDepth 100000 in
theorem encode_downcase_ascii : ∀ b < 0x80, encode (downcase b) = [asciiLower b] := by
  decide

theorem downcaseBytes_ascii (l : List Nat) (h : ∀ b ∈ l, b ≤ 0x7F) :
    downcaseBytes l = l.map asciiLower := by
  induction l with
  | nil => rfl
  | cons b l ih =>
    have hb := h b (by simp)
    rw [downcaseBytes_cons, encode_downcase_ascii b (by omega),
      ih (fun x hx => h x (by simp [hx]))]
    rfl

/-- Claim C18: for every codepoint `c` in every range of the case-fold table, and for
every `c` at all, the encoded byte length of `downcase(c)` is at most (in fact equal to)
the encoded byte length of `c`; and on every zero-terminated buffer the loop of
`utf8_downcase` returns with its write index at or below its read index. -/
theorem encoded_type_downcase_le :
    (∀ blk ∈ g_ccb, ∀ c, inRange blk c → encoded_type (downcase c) ≤ encoded_type c) ∧
    (∀ c, encoded_type (downcase c) ≤ encoded_type c) ∧
    (∀ c, encoded_type (downcase c) = encoded_type c) ∧
    (∀ s : List Nat, 0 ∈ s → (∀ b ∈ s, b < 256) →
      ∃ s1 si p, utf8_downcase_loop (s.length + 1) s 0 0 ACCEPT 0 = some (s1, si, p) ∧
        p ≤ si) := by
  refine ⟨fun _ _ c _ => le_of_eq (encoded_type_downcase c),
    fun c => le_of_eq (encoded_type_downcase c), encoded_type_downcase, fun s hz hb => ?_⟩
  obtain ⟨si, p, h1, h2, _, _⟩ := downcase_result s hz hb
  exact ⟨_, si, p, h1, h2⟩

theorem encoded_type_downcase_le_witness :
    (⟨0x19D, ⟨BLOCK, 1, 213⟩⟩ : case_conversion_block) ∈ g_ccb ∧
    inRange ⟨0x19D, ⟨BLOCK, 1, 213⟩⟩ 0x19D ∧
    encoded_type (downcase 0x19D) ≤ encoded_type 0x19D :=
  ⟨by decide, by decide,
    encoded_type_downcase_le.1 ⟨0x19D, ⟨BLOCK, 1, 213⟩⟩ (by decide) 0x19D (by decide)⟩

/-- Claim C12: for every ASCII-only zero-terminated buffer `utf8_downcase` returns 0,
keeps the byte length, replaces each content byte in `A`..`Z` by the byte plus 32 and
leaves every other byte, the terminator and what follows it included, unchanged; `ABCDE`
becomes `abcde`. -/
theorem utf8_downcase_ascii (s : List Nat) (hz : 0 ∈ s) (hb : ∀ b ∈ s, b < 256)
    (hascii : ∀ b ∈ content s, b ≤ 0x7F) :
    utf8_downcase (some s) =
      some (0, (content s).map asciiLower ++ s.drop (content s).length) ∧
    ((content s).map asciiLower ++ s.drop (content s).length).length = s.length ∧
    utf8_downcase (some [0x41, 0x42, 0x43, 0x44, 0x45, 0]) =
      some (0, [0x61, 0x62, 0x63, 0x64, 0x65, 0]) := by
  obtain ⟨si, p, h1, _, h3, _⟩ := downcase_result s hz hb
  have hspec := scanSpec (content s) (fun b h => hb b (content_sublist s b h))
  have hacc : accepted ACCEPT 0 (content s) = content s :=
    (hspec.1 _ (specDecode_of_ascii _ hascii)).2.1
  rw [hacc, downcaseBytes_ascii _ hascii] at h1 h3
  rw [List.length_map] at h3
  subst h3
  refine ⟨by simp only [utf8_downcase, h1], ?_, by decide⟩
  rw [List.length_append, List.length_map, ← List.length_append, ← (content_split s hz).1]

theorem utf8_downcase_ascii_witness :
    0 ∈ [0x48, 0x69, 0x21, 0x5A, 0, 0x41] ∧ (∀ b ∈ [0x48, 0x69, 0x21, 0x5A, 0, 0x41], b < 256) ∧
    (∀ b ∈ content [0x48, 0x69, 0x21, 0x5A, 0, 0x41], b ≤ 0x7F) ∧
    utf8_downcase (some [0x48, 0x69, 0x21, 0x5A, 0, 0x41]) =
      some (0, (content [0x48, 0x69, 0x21, 0x5A, 0, 0x41]).map asciiLower ++
        [0x48, 0x69, 0x21, 0x5A, 0, 0x41].drop (content [0x48, 0x69, 0x21, 0x5A, 0, 0x41]).length) :=
  ⟨by decide, by decide, by decide,
    (utf8_downcase_ascii [0x48, 0x69, 0x21, 0x5A, 0, 0x41] (by decide) (by decide)
      (by decide)).1⟩

/-- Claim C13: for every well-formed zero-terminated buffer that encodes the codepoints
`cs`, `utf8_downcase` returns 0 and leaves a buffer of the same byte length whose content
has the same length (the terminator is where it was), is well-formed and encodes
`downcase` of each codepoint of `cs` in order; every codepoint is rewritten in place with
an encoding of the same length, and the bytes of a codepoint that lies in no case-fold
range are unchanged. -/
theorem utf8_downcase_wellFormed (s cs : List Nat) (hz : 0 ∈ s) (hb : ∀ b ∈ s, b < 256)
    (hwf : specDecode (content s) = some cs) :
    utf8_downcase (some s) = some (0, downcaseBytes cs ++ s.drop (content s).length) ∧
    (downcaseBytes cs ++ s.drop (content s).length).length = s.length ∧
    content (downcaseBytes cs ++ s.drop (content s).length) = downcaseBytes cs ∧
    (downcaseBytes cs).length = (content s).length ∧
    specDecode (downcaseBytes cs) = some (cs.map downcase) ∧
    s = cs.flatMap encode ++ s.drop (content s).length ∧
    downcaseBytes cs = cs.flatMap (fun c => encode (downcase c)) ∧
    (∀ c, (encode (downcase c)).length = (encode c).length) ∧
    (∀ c, (∀ blk ∈ g_ccb, ¬ inRange blk c) → encode (downcase c) = encode c) := by
  have hbc : ∀ b ∈ content s, b < 256 := fun b h => hb b (content_sublist s b h)
  obtain ⟨si, p, h1, _, h3, _⟩ := downcase_result s hz hb
  have hacc : accepted ACCEPT 0 (content s) = cs := ((scanSpec (content s) hbc).1 cs hwf).2.1
  obtain ⟨hflat, hsc⟩ := specDecode_flatMap (content s).length (content s) cs le_rfl hbc hwf
  have hscalar := hsc (content_ne_zero s)
  have hlen : (downcaseBytes cs).length = (content s).length := by
    rw [downcaseBytes_length, ← hflat]
  rw [hacc, hlen] at h3
  rw [hacc] at h1
  subst h3
  obtain ⟨hsplit, tail, htail⟩ := content_split s hz
  have hscalar2 : ∀ c ∈ cs.map downcase, isScalar c := by
    intro c hc
    obtain ⟨x, hx, rfl⟩ := List.mem_map.1 hc
    exact downcase_scalar x (hscalar x hx)
  refine ⟨by simp only [utf8_downcase, h1], ?_, ?_, hlen, specDecode_encode _ hscalar2, ?_, ?_,
    fun c => ?_, fun c hc => ?_⟩
  · rw [List.length_append, hlen, ← List.length_append, ← hsplit]
  · rw [htail]
    exact content_append_zero _ tail
      (fun b hbm => (flatMap_encode_bytes _ hscalar2 b hbm).1)
  · rw [← hflat]
    exact hsplit
  · simp only [downcaseBytes, List.flatMap_map]
  · rw [encode_length, encode_length, encoded_type_downcase]
  · rw [downcase_miss c hc]

theorem utf8_downcase_wellFormed_witness :
    0 ∈ [0x41, 0xC3, 0x84, 0xE2, 0x82, 0xAC, 0, 0x42] ∧
    (∀ b ∈ [0x41, 0xC3, 0x84, 0xE2, 0x82, 0xAC, 0, 0x42], b < 256) ∧
    specDecode (content [0x41, 0xC3, 0x84, 0xE2, 0x82, 0xAC, 0, 0x42]) =
      some [0x41, 0xC4, 0x20AC] ∧
    utf8_downcase (some [0x41, 0xC3, 0x84, 0xE2, 0x82, 0xAC, 0, 0x42]) =
      some (0, downcaseBytes [0x41, 0xC4, 0x20AC] ++
        [0x41, 0xC3, 0x84, 0xE2, 0x82, 0xAC, 0, 0x42].drop
          (content [0x41, 0xC3, 0x84, 0xE2, 0x82, 0xAC, 0, 0x42]).length) :=
  ⟨by decide, by decide, by decide,
    (utf8_downcase_wellFormed [0x41, 0xC3, 0x84, 0xE2, 0x82, 0xAC, 0, 0x42]
      [0x41, 0xC4, 0x20AC] (by decide) (by decide) (by decide)).1⟩


end Utf8
